import Mathlib

/-!
Verification of the consistent-hashing ring implementations in
`src/consistent_hashing.py` and `src/simple_hashing.py`.

The embedding is a direct transliteration of the Python source:

* Machine integers are `Nat` with explicit `% 2 ^ 32` reductions where the
  source relies on 32-bit overflow (inside the MD5 and SHA-1 compression
  functions used by `hashlib`).
* Python's `dict` is an insertion-ordered association list with unique keys
  (`dget` / `dinsert` / `ddel` below mirror subscript read, subscript
  assignment and `del`).
* `bisect.insort`, `bisect.bisect_left` and `bisect.bisect_right` are
  `insort`, `bl` and `br`.
* A fallible operation returns `Option`; for `get_node` the result type is
  `Option (Option String)`: `none` models an uncaught Python exception
  (IndexError / KeyError), `some none` models returning `None`, and
  `some (some n)` models returning node `n`.

The ring operations take the hash function as an explicit parameter `h`,
mirroring the source where the hash is an attribute of the ring object
(`self.hash_func.hash` resp. `self._hash`); the concrete instantiations are
`hashCH` (SHA-1 truncated, `consistent_hashing.py`) and `hashSH` (full MD5,
`simple_hashing.py`).
-/

/-! ### Byte and 32-bit word helpers -/

/-- Two to the thirty-second power, the modulus for 32-bit arithmetic. -/
def m32 : Nat := 4294967296

/-- Bitwise complement of a 32-bit value `x < 2^32`. -/
def nnot (x : Nat) : Nat := 4294967295 - x

/-- Left rotation of a 32-bit value by `s` places (`0 < s < 32`). -/
def rotl (s x : Nat) : Nat := ((x <<< s) % m32) + (x >>> (32 - s))

/-- Big-endian interpretation of a byte list as an unsigned integer
(this is what `struct.unpack('>Q', ...)` and `int(hexdigest, 16)` compute). -/
def beNat (l : List Nat) : Nat := l.foldl (fun acc b => acc * 256 + b) 0

/-- The four bytes of a 32-bit word, little-endian (MD5 digest byte order). -/
def leBytes4 (w : Nat) : List Nat :=
  [w % 256, (w / 256) % 256, (w / 65536) % 256, (w / 16777216) % 256]

/-- The four bytes of a 32-bit word, big-endian (SHA-1 digest byte order). -/
def beBytes4 (w : Nat) : List Nat :=
  [(w / 16777216) % 256, (w / 65536) % 256, (w / 256) % 256, w % 256]

/-- The eight bytes of a 64-bit value, little-endian (MD5 length field). -/
def leBytes8 (n : Nat) : List Nat :=
  [n % 256, (n / 256) % 256, (n / 256 ^ 2) % 256, (n / 256 ^ 3) % 256,
   (n / 256 ^ 4) % 256, (n / 256 ^ 5) % 256, (n / 256 ^ 6) % 256,
   (n / 256 ^ 7) % 256]

/-- The eight bytes of a 64-bit value, big-endian (SHA-1 length field). -/
def beBytes8 (n : Nat) : List Nat :=
  [(n / 256 ^ 7) % 256, (n / 256 ^ 6) % 256, (n / 256 ^ 5) % 256,
   (n / 256 ^ 4) % 256, (n / 256 ^ 3) % 256, (n / 256 ^ 2) % 256,
   (n / 256) % 256, n % 256]

/-- UTF-8 encoding of a single character (`str.encode('utf-8')`). -/
def utf8Char (c : Char) : List Nat :=
  let n := c.toNat
  if n < 128 then [n]
  else if n < 2048 then [192 + n / 64, 128 + n % 64]
  else if n < 65536 then
    [224 + n / 4096, 128 + (n / 64) % 64, 128 + n % 64]
  else
    [240 + n / 262144, 128 + (n / 4096) % 64, 128 + (n / 64) % 64,
     128 + n % 64]

/-- UTF-8 encoding of a string as a byte list (`key.encode('utf-8')`). -/
def utf8 (s : String) : List Nat :=
  s.data.foldr (fun c acc => utf8Char c ++ acc) []

/-- Split a byte list into 64-byte blocks.  The first argument is fuel; it is
always called with the length of the list, which suffices. -/
def chunks64 : Nat → List Nat → List (List Nat)
  | 0, _ => []
  | _ + 1, [] => []
  | fuel + 1, l => l.take 64 :: chunks64 fuel (l.drop 64)

/-- Group a byte list into 32-bit words, little-endian within each word. -/
def leWords : List Nat → List Nat
  | b0 :: b1 :: b2 :: b3 :: t =>
      (b0 + 256 * (b1 + 256 * (b2 + 256 * b3))) :: leWords t
  | _ => []

/-- Group a byte list into 32-bit words, big-endian within each word. -/
def beWords : List Nat → List Nat
  | b0 :: b1 :: b2 :: b3 :: t =>
      (b3 + 256 * (b2 + 256 * (b1 + 256 * b0))) :: beWords t
  | _ => []

/-! ### MD5 (`hashlib.md5`), used by `simple_hashing.py` -/

/-- The 64 MD5 round constants, `floor(abs(sin(i + 1)) * 2^32)`. -/
def md5K : List Nat :=
  [3614090360, 3905402710, 606105819, 3250441966, 4118548399, 1200080426,
   2821735955, 4249261313, 1770035416, 2336552879, 4294925233, 2304563134,
   1804603682, 4254626195, 2792965006, 1236535329, 4129170786, 3225465664,
   643717713, 3921069994, 3593408605, 38016083, 3634488961, 3889429448,
   568446438, 3275163606, 4107603335, 1163531501, 2850285829, 4243563512,
   1735328473, 2368359562, 4294588738, 2272392833, 1839030562, 4259657740,
   2763975236, 1272893353, 4139469664, 3200236656, 681279174, 3936430074,
   3572445317, 76029189, 3654602809, 3873151461, 530742520, 3299628645,
   4096336452, 1126891415, 2878612391, 4237533241, 1700485571, 2399980690,
   4293915773, 2240044497, 1873313359, 4264355552, 2734768916, 1309151649,
   4149444226, 3174756917, 718787259, 3951481745]

/-- The 64 MD5 per-round left-rotation amounts. -/
def md5S : List Nat :=
  [7, 12, 17, 22, 7, 12, 17, 22, 7, 12, 17, 22, 7, 12, 17, 22,
   5, 9, 14, 20, 5, 9, 14, 20, 5, 9, 14, 20, 5, 9, 14, 20,
   4, 11, 16, 23, 4, 11, 16, 23, 4, 11, 16, 23, 4, 11, 16, 23,
   6, 10, 15, 21, 6, 10, 15, 21, 6, 10, 15, 21, 6, 10, 15, 21]

/-- The MD5 nonlinear function for round `i`. -/
def md5F (i b c d : Nat) : Nat :=
  if i < 16 then (b &&& c) ||| (nnot b &&& d)
  else if i < 32 then (d &&& b) ||| (nnot d &&& c)
  else if i < 48 then b ^^^ c ^^^ d
  else c ^^^ (b ||| nnot d)

/-- The MD5 message-word index for round `i`. -/
def md5G (i : Nat) : Nat :=
  if i < 16 then i
  else if i < 32 then (5 * i + 1) % 16
  else if i < 48 then (3 * i + 5) % 16
  else (7 * i) % 16

/-- One MD5 round on the state `(a, b, c, d)`, message block `M`. -/
def md5Step (M : List Nat) (st : Nat × Nat × Nat × Nat) (i : Nat) :
    Nat × Nat × Nat × Nat :=
  let (a, b, c, d) := st
  let f := (a + md5F i b c d + md5K.getD i 0 + M.getD (md5G i) 0) % m32
  (d, (b + rotl (md5S.getD i 0) f) % m32, b, c)

/-- MD5 compression of one 64-byte block into the chaining state. -/
def md5Block (st : Nat × Nat × Nat × Nat) (block : List Nat) :
    Nat × Nat × Nat × Nat :=
  let M := leWords block
  let (a, b, c, d) := st
  let (a', b', c', d') := (List.range 64).foldl (md5Step M) (a, b, c, d)
  ((a + a') % m32, (b + b') % m32, (c + c') % m32, (d + d') % m32)

/-- MD5 padding: `0x80`, zeros to 56 mod 64, then the bit length
little-endian in 8 bytes. -/
def md5Pad (msg : List Nat) : List Nat :=
  let L := msg.length
  msg ++ [128] ++ List.replicate ((119 - L % 64) % 64) 0 ++ leBytes8 (8 * L)

/-- The four 32-bit MD5 state words of a byte message. -/
def md5Words (msg : List Nat) : Nat × Nat × Nat × Nat :=
  let padded := md5Pad msg
  (chunks64 padded.length padded).foldl md5Block
    (1732584193, 4023233417, 2562383102, 271733878)

/-- The 16 MD5 digest bytes of a byte message (each word little-endian). -/
def md5Digest (msg : List Nat) : List Nat :=
  let (a, b, c, d) := md5Words msg
  leBytes4 a ++ leBytes4 b ++ leBytes4 c ++ leBytes4 d

/-- `simple_hashing.py` line 11-12, `ConsistentHashRing._hash`:
`int(hashlib.md5(key.encode()).hexdigest(), 16)` — the full 128-bit MD5
digest read as a big-endian integer. -/
def hashSH (key : String) : Nat := beNat (md5Digest (utf8 key))

/-! ### SHA-1 (`hashlib.sha1`), used by `consistent_hashing.py` -/

/-- Extend the 16 message words to the 80-word SHA-1 schedule. -/
def sha1Schedule (w16 : List Nat) : List Nat :=
  (List.range 64).foldl
    (fun ws i =>
      ws ++ [rotl 1 (ws.getD (i + 13) 0 ^^^ ws.getD (i + 8) 0 ^^^
                     ws.getD (i + 2) 0 ^^^ ws.getD i 0)])
    w16

/-- The SHA-1 nonlinear function for round `i`. -/
def sha1F (i b c d : Nat) : Nat :=
  if i < 20 then (b &&& c) ||| (nnot b &&& d)
  else if i < 40 then b ^^^ c ^^^ d
  else if i < 60 then (b &&& c) ||| (b &&& d) ||| (c &&& d)
  else b ^^^ c ^^^ d

/-- The SHA-1 round constant for round `i`. -/
def sha1KC (i : Nat) : Nat :=
  if i < 20 then 1518500249
  else if i < 40 then 1859775393
  else if i < 60 then 2400959708
  else 3395469782

/-- One SHA-1 round on the state `(a, b, c, d, e)`. -/
def sha1Step (W : List Nat) (st : Nat × Nat × Nat × Nat × Nat) (i : Nat) :
    Nat × Nat × Nat × Nat × Nat :=
  let (a, b, c, d, e) := st
  let temp := (rotl 5 a + sha1F i b c d + e + sha1KC i + W.getD i 0) % m32
  (temp, a, rotl 30 b, c, d)

/-- SHA-1 compression of one 64-byte block into the chaining state. -/
def sha1Block (st : Nat × Nat × Nat × Nat × Nat) (block : List Nat) :
    Nat × Nat × Nat × Nat × Nat :=
  let W := sha1Schedule (beWords block)
  let (a, b, c, d, e) := st
  let (a', b', c', d', e') := (List.range 80).foldl (sha1Step W) (a, b, c, d, e)
  ((a + a') % m32, (b + b') % m32, (c + c') % m32, (d + d') % m32,
   (e + e') % m32)

/-- SHA-1 padding: `0x80`, zeros to 56 mod 64, then the bit length
big-endian in 8 bytes. -/
def sha1Pad (msg : List Nat) : List Nat :=
  let L := msg.length
  msg ++ [128] ++ List.replicate ((119 - L % 64) % 64) 0 ++ beBytes8 (8 * L)

/-- The five 32-bit SHA-1 state words of a byte message. -/
def sha1Words (msg : List Nat) : Nat × Nat × Nat × Nat × Nat :=
  let padded := sha1Pad msg
  (chunks64 padded.length padded).foldl sha1Block
    (1732584193, 4023233417, 2562383102, 271733878, 3285377520)

/-- The 20 SHA-1 digest bytes of a byte message (each word big-endian). -/
def sha1Digest (msg : List Nat) : List Nat :=
  let (a, b, c, d, e) := sha1Words msg
  beBytes4 a ++ beBytes4 b ++ beBytes4 c ++ beBytes4 d ++ beBytes4 e

/-- `consistent_hashing.py` lines 11-19, `HashFunction.hash`:
`struct.unpack('>Q', hashlib.sha1(key.encode('utf-8')).digest()[:8])[0]` —
the first 8 SHA-1 digest bytes as a big-endian unsigned 64-bit integer. -/
def hashCH (key : String) : Nat := beNat ((sha1Digest (utf8 key)).take 8)

/-! ### Python dict and `bisect` primitives -/

/-- Dict subscript read: the value bound to `q`, if any. -/
def dget {κ α : Type} [DecidableEq κ] : List (κ × α) → κ → Option α
  | [], _ => none
  | (k, v) :: t, q => if k = q then some v else dget t q

/-- Dict subscript assignment `d[q] = w`: update in place if the key is
present (Python dicts keep the original insertion position), else append. -/
def dinsert {κ α : Type} [DecidableEq κ] : List (κ × α) → κ → α → List (κ × α)
  | [], q, w => [(q, w)]
  | (k, v) :: t, q, w =>
      if k = q then (q, w) :: t else (k, v) :: dinsert t q w

/-- Dict deletion `del d[q]` (callers in the source guard on presence). -/
def ddel {κ α : Type} [DecidableEq κ] : List (κ × α) → κ → List (κ × α)
  | [], _ => []
  | (k, v) :: t, q => if k = q then ddel t q else (k, v) :: ddel t q

/-- The keys of a dict, in insertion order. -/
def dkeys {κ α : Type} (d : List (κ × α)) : List κ := d.map Prod.fst

/-- `bisect.insort(l, x)`: insert `x` into the sorted list `l`, after any
elements equal to `x`. -/
def insort : List Nat → Nat → List Nat
  | [], x => [x]
  | y :: t, x => if x < y then x :: y :: t else y :: insort t x

/-- `bisect.bisect_left(l, x)` on a sorted list: the number of leading
elements `< x`. -/
def bl : List Nat → Nat → Nat
  | [], _ => 0
  | y :: t, x => if y < x then bl t x + 1 else 0

/-- `bisect.bisect_right(l, x)` on a sorted list: the number of leading
elements `≤ x`. -/
def br : List Nat → Nat → Nat
  | [], _ => 0
  | y :: t, x => if y ≤ x then br t x + 1 else 0

/-! ### The ring state and its operations

Both source files carry the same four fields; `replicas` is
`self.replicas` in `consistent_hashing.py` and `self.num_virtual_nodes` in
`simple_hashing.py`. -/

/-- The mutable state of a `ConsistentHashRing` object. -/
structure RingState where
  replicas : Nat
  ring : List (Nat × String)
  sorted_keys : List Nat
  nodes : List String
deriving DecidableEq, Repr

/-- `__init__(replicas)`: the freshly constructed ring. -/
def emptyRing (R : Nat) : RingState := ⟨R, [], [], []⟩

/-- The virtual-node key string built in both files by the
f-string `f"{node}#{i}"`. -/
def vnode_key (node : String) (i : Nat) : String :=
  node ++ "#" ++ toString i

/-- `self.nodes.add(node)` on the set of physical nodes. -/
def sadd (l : List String) (n : String) : List String :=
  if n ∈ l then l else l ++ [n]

/-- One iteration of the placement loop shared by both `add_node` bodies:
`position = hash(vnode_key); self.ring[position] = node;
bisect.insort(self.sorted_keys, position)`. -/
def addVnode (h : String → Nat) (node : String) (s : RingState) (i : Nat) :
    RingState :=
  let position := h (vnode_key node i)
  { s with ring := dinsert s.ring position node,
           sorted_keys := insort s.sorted_keys position }

/-- `consistent_hashing.py` lines 37-48, `ConsistentHashRing.add_node`:
adds `node` to the node set (no already-active guard) and places all
`replicas` virtual nodes. -/
def add_nodeCH (h : String → Nat) (s : RingState) (node : String) :
    RingState :=
  (List.range s.replicas).foldl (addVnode h node)
    { s with nodes := sadd s.nodes node }

/-- `simple_hashing.py` lines 14-26, `ConsistentHashRing.add_node`: returns
unchanged if the node is already active, otherwise runs the same body as
`add_nodeCH`. -/
def add_nodeSH (h : String → Nat) (s : RingState) (node : String) :
    RingState :=
  if node ∈ s.nodes then s else add_nodeCH h s node

/-- One iteration of the removal loop shared by both `remove_node` bodies:
recompute the position, delete it from the dict if present, and pop it from
`sorted_keys` if it sits at its `bisect_left` index. -/
def removeVnode (h : String → Nat) (node : String) (s : RingState) (i : Nat) :
    RingState :=
  let position := h (vnode_key node i)
  let r' := if (dget s.ring position).isSome then ddel s.ring position
            else s.ring
  let idx := bl s.sorted_keys position
  let sk := if s.sorted_keys.get? idx = some position
            then s.sorted_keys.eraseIdx idx else s.sorted_keys
  { s with ring := r', sorted_keys := sk }

/-- `consistent_hashing.py` lines 50-68 and `simple_hashing.py` lines 43-60,
`ConsistentHashRing.remove_node` (the two bodies are identical): no-op if
the node is not active, otherwise drop it from the node set and remove all
its recomputed virtual positions. -/
def remove_node (h : String → Nat) (s : RingState) (node : String) :
    RingState :=
  if node ∈ s.nodes then
    (List.range s.replicas).foldl (removeVnode h node)
      { s with nodes := s.nodes.erase node }
  else s

/-- `consistent_hashing.py` lines 70-87, `ConsistentHashRing.get_node`:
`bisect_left` search (first position `≥ hash(key)`), wrapping to index 0.
Result `none` is an uncaught IndexError/KeyError, `some none` is Python
`None`, `some (some n)` is node `n`. -/
def get_nodeCH (h : String → Nat) (s : RingState) (key : String) :
    Option (Option String) :=
  if s.ring = [] then some none
  else
    let hash_val := h key
    let idx := bl s.sorted_keys hash_val
    let idx' := if idx = s.sorted_keys.length then 0 else idx
    match s.sorted_keys.get? idx' with
    | none => none
    | some pos =>
      match dget s.ring pos with
      | none => none
      | some n => some (some n)

/-- `simple_hashing.py` lines 28-41, `ConsistentHashRing.get_node`:
identical to `get_nodeCH` except that the search is `bisect_right`
(first position strictly greater than `hash(key)`). -/
def get_nodeSH (h : String → Nat) (s : RingState) (key : String) :
    Option (Option String) :=
  if s.ring = [] then some none
  else
    let key_pos := h key
    let idx := br s.sorted_keys key_pos
    let idx' := if idx = s.sorted_keys.length then 0 else idx
    match s.sorted_keys.get? idx' with
    | none => none
    | some pos =>
      match dget s.ring pos with
      | none => none
      | some n => some (some n)

/-! ### The storage service of `simple_hashing.py`

`self.storage` maps a node name to that node's key/value dict.  Its keys
are `Option String` because the migration loop may use `get_node`'s `None`
result as a dict key (Python allows this). -/

/-- The mutable state of a `StorageService` object. -/
structure StorageService where
  ring : RingState
  storage : List (Option String × List (String × String))
deriving DecidableEq, Repr

/-- One iteration of the migration loop of `remove_node_safe`
(`simple_hashing.py` lines 91-101): look up the new owner of the pair on
the post-removal ring, create its store if absent, and write the pair
there.  `none` threads an uncaught exception out of the loop. -/
def migStep (h : String → Nat) (ring' : RingState)
    (acc : Option (List (Option String × List (String × String))))
    (kv : String × String) :
    Option (List (Option String × List (String × String))) :=
  match acc with
  | none => none
  | some stor =>
    match get_nodeSH h ring' kv.1 with
    | none => none
    | some new_node =>
      let stor' := if (dget stor new_node).isSome then stor
                   else dinsert stor new_node []
      some (dinsert stor' new_node
              (dinsert ((dget stor' new_node).getD []) kv.1 kv.2))

/-- `simple_hashing.py` lines 79-104, `StorageService.remove_node_safe`:
read the departing node's data, remove the node from the ring, re-insert
every stored pair under its new owner, then delete the old store.  `none`
models an uncaught exception (from the initial subscript read or from a
`get_node` crash inside the loop). -/
def remove_node_safe (h : String → Nat) (s : StorageService)
    (node_to_remove : String) : Option StorageService :=
  match dget s.storage (some node_to_remove) with
  | none => none
  | some data_to_move =>
    let ring' := remove_node h s.ring node_to_remove
    match data_to_move.foldl (migStep h ring') (some s.storage) with
    | none => none
    | some stor => some ⟨ring', ddel stor (some node_to_remove)⟩

/-! ### Call sequences and the collision-freedom side condition -/

/-- A topology call against the ring. -/
inductive Op where
  | add : String → Op
  | rem : String → Op
deriving DecidableEq, Repr

/-- The node named by a call. -/
def opNode : Op → String
  | .add n => n
  | .rem n => n

/-- The nodes named by a call sequence. -/
def opNodes (ops : List Op) : List String := ops.map opNode

/-- Apply one call, using the guarded (`simple_hashing.py`) `add_node`. -/
def applyOp (h : String → Nat) (s : RingState) : Op → RingState
  | .add n => add_nodeSH h s n
  | .rem n => remove_node h s n

/-- The ring state after a call sequence against a fresh ring of `R`
replicas. -/
def runOps (h : String → Nat) (R : Nat) (ops : List Op) : RingState :=
  ops.foldl (applyOp h) (emptyRing R)

/-- No two distinct virtual-node slots of the nodes of `S` hash to the same
position under `h`.  This is the "absent hash collisions" proviso of the
specification (section 4.2). -/
def noCollOn (h : String → Nat) (R : Nat) (S : List String) : Prop :=
  ∀ X ∈ S, ∀ Y ∈ S, ∀ i ∈ List.range R, ∀ j ∈ List.range R,
    (X ≠ Y ∨ i ≠ j) → h (vnode_key X i) ≠ h (vnode_key Y j)

instance (h : String → Nat) (R : Nat) (S : List String) :
    Decidable (noCollOn h R S) := by
  unfold noCollOn; infer_instance

/-! ### Definitions taken from the specification's words (for refinement
claims about the lookup policy) -/

/-- Modelled from the spec: "the smallest entry in the ordered sequence that
is ≥ position (search policy A) ... and wraps to the first entry in the
sequence if none qualifies".  On a sorted list the first element `≥ p` is
the smallest one. -/
def specSuccA (l : List Nat) (p : Nat) : Option Nat :=
  match l.find? (fun q => decide (p ≤ q)) with
  | some q => some q
  | none => l.head?

/-- Modelled from the spec: the policy-B variant, "strictly greater than
position", wrapping to the first entry if none qualifies. -/
def specSuccB (l : List Nat) (p : Nat) : Option Nat :=
  match l.find? (fun q => decide (p < q)) with
  | some q => some q
  | none => l.head?

/-! ### Lemmas about the dict primitives -/

theorem dget_dinsert {κ α : Type} [DecidableEq κ] (d : List (κ × α))
    (k : κ) (v : α) (q : κ) :
    dget (dinsert d k v) q = if k = q then some v else dget d q := by
  induction d with
  | nil => simp [dinsert, dget]
  | cons kv t ih =>
    obtain ⟨k', v'⟩ := kv
    by_cases hk : k' = k
    · subst hk
      by_cases hq : k' = q <;> simp [dinsert, dget, hq]
    · by_cases hq : k' = q
      · subst hq
        simp [dinsert, dget, hk, Ne.symm hk]
      · simp [dinsert, dget, hk, hq, ih]

theorem dget_ddel {κ α : Type} [DecidableEq κ] (d : List (κ × α))
    (k : κ) (q : κ) :
    dget (ddel d k) q = if k = q then none else dget d q := by
  induction d with
  | nil => simp [ddel, dget]
  | cons kv t ih =>
    obtain ⟨k', v'⟩ := kv
    by_cases hk : k' = k
    · subst hk
      have h1 : ddel ((k', v') :: t) k' = ddel t k' := by simp [ddel]
      rw [h1, ih]
      by_cases hq : k' = q
      · simp [hq]
      · simp [dget, hq]
    · by_cases hq : k' = q
      · subst hq
        simp [ddel, dget, hk, Ne.symm hk]
      · simp [ddel, dget, hk, hq, ih]

theorem ddel_of_dget_none {κ α : Type} [DecidableEq κ] (d : List (κ × α))
    (k : κ) (h : dget d k = none) : ddel d k = d := by
  induction d with
  | nil => rfl
  | cons kv t ih =>
    obtain ⟨k', v'⟩ := kv
    by_cases hk : k' = k
    · subst hk; simp [dget] at h
    · simp [dget, hk] at h
      simp [ddel, hk, ih h]

theorem dget_isSome_iff_mem {κ α : Type} [DecidableEq κ] (d : List (κ × α))
    (q : κ) : (dget d q).isSome ↔ q ∈ dkeys d := by
  induction d with
  | nil => simp [dget, dkeys]
  | cons kv t ih =>
    obtain ⟨k', v'⟩ := kv
    by_cases hk : k' = q
    · subst hk; simp [dget, dkeys]
    · simp [dget, hk, dkeys, Ne.symm hk] at *
      simpa [dkeys] using ih

theorem dkeys_dinsert_of_none {κ α : Type} [DecidableEq κ]
    (d : List (κ × α)) (q : κ) (w : α) (h : dget d q = none) :
    dkeys (dinsert d q w) = dkeys d ++ [q] := by
  induction d with
  | nil => simp [dinsert, dkeys]
  | cons kv t ih =>
    obtain ⟨k', v'⟩ := kv
    by_cases hk : k' = q
    · subst hk; simp [dget] at h
    · simp [dget, hk] at h
      simp [dinsert, hk, dkeys] at *
      exact ih h

theorem dkeys_dinsert_of_some {κ α : Type} [DecidableEq κ]
    (d : List (κ × α)) (q : κ) (w : α) (h : (dget d q).isSome) :
    dkeys (dinsert d q w) = dkeys d := by
  induction d with
  | nil => simp [dget] at h
  | cons kv t ih =>
    obtain ⟨k', v'⟩ := kv
    by_cases hk : k' = q
    · subst hk; simp [dinsert, dkeys]
    · simp [dget, hk] at h
      simp [dinsert, hk, dkeys] at *
      exact ih h

theorem dkeys_ddel_of_nodup {κ α : Type} [DecidableEq κ]
    (d : List (κ × α)) (q : κ) (h : (dkeys d).Nodup) :
    dkeys (ddel d q) = (dkeys d).erase q := by
  induction d with
  | nil => rfl
  | cons kv t ih =>
    obtain ⟨k', v'⟩ := kv
    simp only [dkeys, List.map_cons, List.nodup_cons] at h
    by_cases hk : k' = q
    · subst hk
      have ht : dget t k' = none := by
        cases hg : dget t k' with
        | none => rfl
        | some w =>
          exact absurd ((dget_isSome_iff_mem t k').1 (by simp [hg])) h.1
      simp [ddel, ddel_of_dget_none t k' ht, dkeys, List.erase_cons_head]
    · have hnd : (dkeys t).Nodup := h.2
      have hbe : ¬(k' == q) := by simpa using hk
      simp only [ddel, if_neg hk, dkeys, List.map_cons,
        List.erase_cons_tail hbe]
      have := ih hnd
      simpa [dkeys] using this

theorem dget_exists_of_ne_nil {κ α : Type} [DecidableEq κ]
    (d : List (κ × α)) (h : d ≠ []) : ∃ p n, dget d p = some n := by
  cases d with
  | nil => exact absurd rfl h
  | cons kv t => exact ⟨kv.1, kv.2, by cases kv; simp [dget]⟩

/-! ### Lemmas about `insort`, `bl` and `br` -/

theorem insort_perm (l : List Nat) (x : Nat) :
    List.Perm (insort l x) (x :: l) := by
  induction l with
  | nil => simp [insort]
  | cons y t ih =>
    by_cases hx : x < y
    · simp [insort, hx]
    · simp only [insort, hx, if_false]
      exact (ih.cons y).trans (List.Perm.swap x y t)

theorem mem_insort (l : List Nat) (x y : Nat) :
    y ∈ insort l x ↔ y = x ∨ y ∈ l := by
  rw [(insort_perm l x).mem_iff]
  simp

theorem insort_pairwise (l : List Nat) (x : Nat)
    (hs : l.Pairwise (· < ·)) (hx : x ∉ l) :
    (insort l x).Pairwise (· < ·) := by
  induction l with
  | nil => simp [insort]
  | cons y t ih =>
    rw [List.pairwise_cons] at hs
    by_cases hlt : x < y
    · simp only [insort, hlt, if_true]
      rw [List.pairwise_cons]
      refine ⟨?_, List.pairwise_cons.2 hs⟩
      intro b hb
      rcases List.mem_cons.1 hb with hb | hb
      · exact hb ▸ hlt
      · exact hlt.trans (hs.1 b hb)
    · simp only [insort, hlt, if_false]
      rw [List.pairwise_cons]
      have hxy : y < x := by
        rcases Nat.lt_trichotomy x y with h | h | h
        · exact absurd h hlt
        · exact absurd (h ▸ List.mem_cons_self x t) (h ▸ hx)
        · exact h
      refine ⟨?_, ih hs.2 (fun hm => hx (List.mem_cons_of_mem y hm))⟩
      intro b hb
      rcases (mem_insort t x b).1 hb with hb | hb
      · exact hb ▸ hxy
      · exact hs.1 b hb

theorem bl_le_length (l : List Nat) (x : Nat) : bl l x ≤ l.length := by
  induction l with
  | nil => simp [bl]
  | cons y t ih =>
    by_cases h : y < x <;> simp [bl, h, Nat.succ_le_succ ih]

theorem br_le_length (l : List Nat) (x : Nat) : br l x ≤ l.length := by
  induction l with
  | nil => simp [br]
  | cons y t ih =>
    by_cases h : y ≤ x <;> simp [br, h, Nat.succ_le_succ ih]

theorem bl_eq_length_of_forall_lt (l : List Nat) (x : Nat)
    (h : ∀ y ∈ l, y < x) : bl l x = l.length := by
  induction l with
  | nil => rfl
  | cons y t ih =>
    simp [bl, h y (List.mem_cons_self y t),
      ih (fun z hz => h z (List.mem_cons_of_mem y hz))]

theorem br_eq_length_of_forall_le (l : List Nat) (x : Nat)
    (h : ∀ y ∈ l, y ≤ x) : br l x = l.length := by
  induction l with
  | nil => rfl
  | cons y t ih =>
    simp [br, h y (List.mem_cons_self y t),
      ih (fun z hz => h z (List.mem_cons_of_mem y hz))]

theorem get?_bl_eq_find? (l : List Nat) (x : Nat) :
    l.get? (bl l x) = l.find? (fun q => decide (x ≤ q)) := by
  induction l with
  | nil => rfl
  | cons y t ih =>
    simp only [List.get?_eq_getElem?] at ih ⊢
    by_cases h : y < x
    · have : ¬ x ≤ y := by omega
      simp [bl, h, List.find?_cons, this, ih]
    · have : x ≤ y := by omega
      simp [bl, h, List.find?_cons, this]

theorem get?_br_eq_find? (l : List Nat) (x : Nat) :
    l.get? (br l x) = l.find? (fun q => decide (x < q)) := by
  induction l with
  | nil => rfl
  | cons y t ih =>
    simp only [List.get?_eq_getElem?] at ih ⊢
    by_cases h : y ≤ x
    · have : ¬ x < y := by omega
      simp [br, h, List.find?_cons, this, ih]
    · have : x < y := by omega
      simp [br, h, List.find?_cons, this]

theorem get?_bl_of_mem (l : List Nat) (x : Nat)
    (hs : l.Pairwise (· < ·)) (hx : x ∈ l) :
    l.get? (bl l x) = some x := by
  induction l with
  | nil => simp at hx
  | cons y t ih =>
    rw [List.pairwise_cons] at hs
    by_cases h : y < x
    · have hxy : x ≠ y := by omega
      have hxt : x ∈ t := by
        rcases List.mem_cons.1 hx with h' | h'
        · exact absurd h' hxy
        · exact h'
      have hih := ih hs.2 hxt
      simp only [List.get?_eq_getElem?] at hih ⊢
      simp [bl, h, hih]
    · have hxy : x = y := by
        rcases List.mem_cons.1 hx with h' | h'
        · exact h'
        · exact absurd (hs.1 x h') h
      simp [bl, h, hxy]

theorem eraseIdx_bl_of_mem (l : List Nat) (x : Nat)
    (hs : l.Pairwise (· < ·)) (hx : x ∈ l) :
    l.eraseIdx (bl l x) = l.erase x := by
  induction l with
  | nil => simp at hx
  | cons y t ih =>
    rw [List.pairwise_cons] at hs
    by_cases h : y < x
    · have hxy : x ≠ y := by omega
      have hxt : x ∈ t := by
        rcases List.mem_cons.1 hx with h' | h'
        · exact absurd h' hxy
        · exact h'
      simp [bl, h, List.eraseIdx, List.erase_cons,
        show ¬(y == x) by simpa using Ne.symm hxy, ih hs.2 hxt]
    · have hxy : x = y := by
        rcases List.mem_cons.1 hx with h' | h'
        · exact h'
        · exact absurd (hs.1 x h') h
      simp [bl, h, List.eraseIdx, List.erase_cons, hxy]

/-! ### The placement fold of `add_node` -/

theorem foldAdd_replicas (h : String → Nat) (X : String) (L : List Nat)
    (s : RingState) :
    (L.foldl (addVnode h X) s).replicas = s.replicas := by
  induction L generalizing s with
  | nil => rfl
  | cons i t ih => simpa [addVnode] using ih (addVnode h X s i)

theorem foldAdd_nodes (h : String → Nat) (X : String) (L : List Nat)
    (s : RingState) :
    (L.foldl (addVnode h X) s).nodes = s.nodes := by
  induction L generalizing s with
  | nil => rfl
  | cons i t ih => simpa [addVnode] using ih (addVnode h X s i)

theorem foldAdd_dget_some (h : String → Nat) (X : String) (L : List Nat)
    (s : RingState) (q : Nat)
    (hq : dget s.ring q = some X ∨ ∃ i ∈ L, q = h (vnode_key X i)) :
    dget ((L.foldl (addVnode h X) s)).ring q = some X := by
  induction L generalizing s with
  | nil =>
    rcases hq with hq | ⟨i, hi, _⟩
    · exact hq
    · simp at hi
  | cons i0 t ih =>
    apply ih (addVnode h X s i0)
    rcases hq with hq | ⟨i, hi, hqi⟩
    · left
      rw [show (addVnode h X s i0).ring
            = dinsert s.ring (h (vnode_key X i0)) X from rfl, dget_dinsert]
      split
      · rfl
      · exact hq
    · rcases List.mem_cons.1 hi with hi | hi
      · left
        rw [show (addVnode h X s i0).ring
              = dinsert s.ring (h (vnode_key X i0)) X from rfl, dget_dinsert,
          if_pos (by rw [hqi, hi])]
      · exact Or.inr ⟨i, hi, hqi⟩

theorem foldAdd_dget_other (h : String → Nat) (X : String) (L : List Nat)
    (s : RingState) (q : Nat) (hq : ∀ i ∈ L, q ≠ h (vnode_key X i)) :
    dget ((L.foldl (addVnode h X) s)).ring q = dget s.ring q := by
  induction L generalizing s with
  | nil => rfl
  | cons i0 t ih =>
    rw [List.foldl_cons, ih (addVnode h X s i0)
      (fun i hi => hq i (List.mem_cons_of_mem i0 hi))]
    rw [show (addVnode h X s i0).ring
          = dinsert s.ring (h (vnode_key X i0)) X from rfl, dget_dinsert]
    rw [if_neg fun hc => hq i0 (List.mem_cons_self i0 t) hc.symm]

theorem foldAdd_sorted_perm (h : String → Nat) (X : String) (L : List Nat)
    (s : RingState) :
    List.Perm ((L.foldl (addVnode h X) s).sorted_keys)
      (L.map (fun i => h (vnode_key X i)) ++ s.sorted_keys) := by
  induction L generalizing s with
  | nil => simp
  | cons i0 t ih =>
    rw [List.foldl_cons]
    refine (ih (addVnode h X s i0)).trans ?_
    have h1 : List.Perm (addVnode h X s i0).sorted_keys
        (h (vnode_key X i0) :: s.sorted_keys) :=
      insort_perm s.sorted_keys (h (vnode_key X i0))
    refine ((h1.append_left _).trans ?_)
    simp only [List.map_cons, List.cons_append]
    exact List.perm_middle

theorem foldAdd_dkeys (h : String → Nat) (X : String) (L : List Nat)
    (s : RingState)
    (hfresh : ∀ i ∈ L, dget s.ring (h (vnode_key X i)) = none)
    (hnd : (L.map (fun i => h (vnode_key X i))).Nodup) :
    dkeys ((L.foldl (addVnode h X) s)).ring
      = dkeys s.ring ++ L.map (fun i => h (vnode_key X i)) := by
  induction L generalizing s with
  | nil => simp
  | cons i0 t ih =>
    rw [List.foldl_cons]
    simp only [List.map_cons, List.nodup_cons] at hnd
    have hstep : dkeys (addVnode h X s i0).ring
        = dkeys s.ring ++ [h (vnode_key X i0)] := by
      rw [show (addVnode h X s i0).ring
            = dinsert s.ring (h (vnode_key X i0)) X from rfl]
      exact dkeys_dinsert_of_none _ _ _
        (hfresh i0 (List.mem_cons_self i0 t))
    have hr : ∀ i ∈ t, dget (addVnode h X s i0).ring (h (vnode_key X i))
        = none := by
      intro i hi
      rw [show (addVnode h X s i0).ring
            = dinsert s.ring (h (vnode_key X i0)) X from rfl, dget_dinsert]
      have hne : ¬ h (vnode_key X i0) = h (vnode_key X i) := by
        intro hc
        exact hnd.1 (hc ▸ List.mem_map_of_mem _ hi)
      rw [if_neg hne]
      exact hfresh i (List.mem_cons_of_mem i0 hi)
    rw [ih (addVnode h X s i0) hr hnd.2, hstep, List.map_cons,
      List.append_assoc]
    rfl

theorem foldAdd_pairwise (h : String → Nat) (X : String) (L : List Nat)
    (s : RingState) (hs : s.sorted_keys.Pairwise (· < ·))
    (hfresh : ∀ i ∈ L, h (vnode_key X i) ∉ s.sorted_keys)
    (hnd : (L.map (fun i => h (vnode_key X i))).Nodup) :
    ((L.foldl (addVnode h X) s).sorted_keys).Pairwise (· < ·) := by
  induction L generalizing s with
  | nil => exact hs
  | cons i0 t ih =>
    rw [List.foldl_cons]
    simp only [List.map_cons, List.nodup_cons] at hnd
    refine ih (addVnode h X s i0) ?_ ?_ hnd.2
    · exact insort_pairwise _ _ hs (hfresh i0 (List.mem_cons_self i0 t))
    · intro i hi hmem
      rcases (mem_insort _ _ _).1 hmem with hc | hc
      · exact hnd.1 (hc ▸ List.mem_map_of_mem _ hi)
      · exact hfresh i (List.mem_cons_of_mem i0 hi) hc

/-! ### The removal fold of `remove_node` -/

theorem removeVnode_ring_dget (h : String → Nat) (X : String)
    (s : RingState) (i : Nat) (q : Nat) :
    dget (removeVnode h X s i).ring q
      = if q = h (vnode_key X i) then none else dget s.ring q := by
  have hshape : (removeVnode h X s i).ring
      = if (dget s.ring (h (vnode_key X i))).isSome
        then ddel s.ring (h (vnode_key X i)) else s.ring := rfl
  by_cases hp : (dget s.ring (h (vnode_key X i))).isSome
  · rw [hshape, if_pos hp, dget_ddel]
    by_cases hq : q = h (vnode_key X i)
    · rw [if_pos hq, if_pos hq.symm]
    · rw [if_neg hq, if_neg (fun hc => hq hc.symm)]
  · rw [hshape, if_neg hp]
    by_cases hq : q = h (vnode_key X i)
    · rw [if_pos hq, hq]
      cases hg : dget s.ring (h (vnode_key X i)) with
      | none => rfl
      | some w => rw [hg] at hp; simp at hp
    · rw [if_neg hq]

theorem removeVnode_sorted (h : String → Nat) (X : String) (s : RingState)
    (i : Nat) (hs : s.sorted_keys.Pairwise (· < ·)) :
    (removeVnode h X s i).sorted_keys
      = s.sorted_keys.erase (h (vnode_key X i)) := by
  by_cases hm : h (vnode_key X i) ∈ s.sorted_keys
  · rw [show (removeVnode h X s i).sorted_keys
        = if s.sorted_keys.get? (bl s.sorted_keys (h (vnode_key X i)))
              = some (h (vnode_key X i))
          then s.sorted_keys.eraseIdx
                 (bl s.sorted_keys (h (vnode_key X i)))
          else s.sorted_keys from rfl,
      if_pos (get?_bl_of_mem _ _ hs hm)]
    exact eraseIdx_bl_of_mem _ _ hs hm
  · rw [show (removeVnode h X s i).sorted_keys
        = if s.sorted_keys.get? (bl s.sorted_keys (h (vnode_key X i)))
              = some (h (vnode_key X i))
          then s.sorted_keys.eraseIdx
                 (bl s.sorted_keys (h (vnode_key X i)))
          else s.sorted_keys from rfl,
      if_neg (fun hc => hm (List.get?_mem hc)), List.erase_of_not_mem hm]

theorem removeVnode_nodes (h : String → Nat) (X : String) (s : RingState)
    (i : Nat) : (removeVnode h X s i).nodes = s.nodes := rfl

theorem removeVnode_replicas (h : String → Nat) (X : String) (s : RingState)
    (i : Nat) : (removeVnode h X s i).replicas = s.replicas := rfl

theorem foldRem_nodes (h : String → Nat) (X : String) (L : List Nat)
    (s : RingState) :
    (L.foldl (removeVnode h X) s).nodes = s.nodes := by
  induction L generalizing s with
  | nil => rfl
  | cons i t ih => simpa using ih (removeVnode h X s i)

theorem foldRem_replicas (h : String → Nat) (X : String) (L : List Nat)
    (s : RingState) :
    (L.foldl (removeVnode h X) s).replicas = s.replicas := by
  induction L generalizing s with
  | nil => rfl
  | cons i t ih => simpa using ih (removeVnode h X s i)

theorem foldRem_dget_none (h : String → Nat) (X : String) (L : List Nat)
    (s : RingState) (q : Nat)
    (hq : (∃ i ∈ L, q = h (vnode_key X i)) ∨ dget s.ring q = none) :
    dget ((L.foldl (removeVnode h X) s)).ring q = none := by
  induction L generalizing s with
  | nil =>
    rcases hq with ⟨i, hi, _⟩ | hq
    · simp at hi
    · exact hq
  | cons i0 t ih =>
    rw [List.foldl_cons]
    apply ih (removeVnode h X s i0)
    rcases hq with ⟨i, hi, hqi⟩ | hq
    · rcases List.mem_cons.1 hi with hi | hi
      · right
        rw [removeVnode_ring_dget, if_pos (hi ▸ hqi)]
      · exact Or.inl ⟨i, hi, hqi⟩
    · right
      rw [removeVnode_ring_dget]
      split
      · rfl
      · exact hq

theorem foldRem_dget_other (h : String → Nat) (X : String) (L : List Nat)
    (s : RingState) (q : Nat) (hq : ∀ i ∈ L, q ≠ h (vnode_key X i)) :
    dget ((L.foldl (removeVnode h X) s)).ring q = dget s.ring q := by
  induction L generalizing s with
  | nil => rfl
  | cons i0 t ih =>
    rw [List.foldl_cons, ih (removeVnode h X s i0)
      (fun i hi => hq i (List.mem_cons_of_mem i0 hi)),
      removeVnode_ring_dget, if_neg (hq i0 (List.mem_cons_self i0 t))]

/-! ### The representation invariant -/

/-- Well-formedness of the redundant ring representation: the dict has
unique keys and `sorted_keys` is a strictly sorted permutation of them. -/
def WfR (s : RingState) : Prop :=
  (dkeys s.ring).Nodup ∧ List.Perm s.sorted_keys (dkeys s.ring)
    ∧ s.sorted_keys.Pairwise (· < ·)

theorem removeVnode_WfR (h : String → Nat) (X : String) (s : RingState)
    (i : Nat) (hw : WfR s) : WfR (removeVnode h X s i) := by
  obtain ⟨hnd, hperm, hsort⟩ := hw
  have hsorted' := removeVnode_sorted h X s i hsort
  have hshape : (removeVnode h X s i).ring
      = if (dget s.ring (h (vnode_key X i))).isSome
        then ddel s.ring (h (vnode_key X i)) else s.ring := rfl
  by_cases hp : (dget s.ring (h (vnode_key X i))).isSome
  · refine ⟨?_, ?_, ?_⟩
    · rw [hshape, if_pos hp, dkeys_ddel_of_nodup _ _ hnd]
      exact hnd.erase _
    · rw [hsorted', hshape, if_pos hp, dkeys_ddel_of_nodup _ _ hnd]
      exact hperm.erase _
    · rw [hsorted']
      exact List.Pairwise.sublist (List.erase_sublist _ _) hsort
  · have hm : h (vnode_key X i) ∉ dkeys s.ring := by
      intro hmem
      exact hp ((dget_isSome_iff_mem _ _).2 hmem)
    have hm' : h (vnode_key X i) ∉ s.sorted_keys := by
      intro hmem
      exact hm (hperm.mem_iff.1 hmem)
    refine ⟨?_, ?_, ?_⟩
    · rw [hshape, if_neg hp]
      exact hnd
    · rw [hsorted', List.erase_of_not_mem hm', hshape, if_neg hp]
      exact hperm
    · rw [hsorted', List.erase_of_not_mem hm']
      exact hsort

theorem foldRem_WfR (h : String → Nat) (X : String) (L : List Nat)
    (s : RingState) (hw : WfR s) :
    WfR (L.foldl (removeVnode h X) s) := by
  induction L generalizing s with
  | nil => exact hw
  | cons i t ih =>
    rw [List.foldl_cons]
    exact ih (removeVnode h X s i) (removeVnode_WfR h X s i hw)

/-- The reachability invariant for a ring evolved by guarded `add_node`
and `remove_node` calls naming only nodes of `S`, with collision-free
virtual-node placement: the node list is duplicate-free and within `S`,
the dict holds exactly the virtual positions of the active nodes, and the
representation is well-formed. -/
structure RInv (h : String → Nat) (R : Nat) (S : List String)
    (s : RingState) : Prop where
  rep : s.replicas = R
  ndup : s.nodes.Nodup
  nsub : ∀ n ∈ s.nodes, n ∈ S
  map : ∀ p n, dget s.ring p = some n
      ↔ n ∈ s.nodes ∧ ∃ i, i < R ∧ p = h (vnode_key n i)
  wf : WfR s

theorem inv_empty (h : String → Nat) (R : Nat) (S : List String) :
    RInv h R S (emptyRing R) := by
  refine ⟨rfl, List.nodup_nil, by simp [emptyRing], ?_, ?_⟩
  · intro p n
    simp [emptyRing, dget]
  · exact ⟨List.nodup_nil, by simp [emptyRing, dkeys], List.Pairwise.nil⟩

theorem inv_add (h : String → Nat) (R : Nat) (S : List String)
    (s : RingState) (X : String) (hS : X ∈ S) (hcoll : noCollOn h R S)
    (hinv : RInv h R S s) : RInv h R S (add_nodeSH h s X) := by
  have hrep := hinv.rep
  subst hrep
  by_cases hmem : X ∈ s.nodes
  · unfold add_nodeSH
    rw [if_pos hmem]
    exact hinv
  · unfold add_nodeSH add_nodeCH
    rw [if_neg hmem]
    show RInv h s.replicas S
      ((List.range s.replicas).foldl (addVnode h X)
        { s with nodes := sadd s.nodes X })
    have hP : ∀ i ∈ List.range s.replicas,
        dget s.ring (h (vnode_key X i)) = none := by
      intro i hi
      cases hg : dget s.ring (h (vnode_key X i)) with
      | none => rfl
      | some n =>
        obtain ⟨hn, j, hj, hpj⟩ := (hinv.map _ _).1 hg
        have hne : X ≠ n := fun hc => hmem (hc ▸ hn)
        exact absurd hpj
          (hcoll X hS n (hinv.nsub n hn) i hi j (List.mem_range.2 hj)
            (Or.inl hne))
    have hndP :
        ((List.range s.replicas).map fun i => h (vnode_key X i)).Nodup := by
      refine List.Nodup.map_on ?_ (List.nodup_range _)
      intro i hi j hj hij
      by_contra hne
      exact hcoll X hS X hS i hi j hj (Or.inr hne) hij
    have hsadd : sadd s.nodes X = s.nodes ++ [X] := by
      rw [sadd, if_neg hmem]
    have hfoldnodes :
        ((List.range s.replicas).foldl (addVnode h X)
          { s with nodes := sadd s.nodes X }).nodes = s.nodes ++ [X] := by
      rw [foldAdd_nodes]
      exact hsadd
    refine ⟨?_, ?_, ?_, ?_, ?_⟩
    · rw [foldAdd_replicas]
    · rw [hfoldnodes]
      rw [List.nodup_append]
      refine ⟨hinv.ndup, List.nodup_singleton X, ?_⟩
      intro a ha hb
      rw [List.mem_singleton] at hb
      exact hmem (hb ▸ ha)
    · intro n hn
      rw [hfoldnodes] at hn
      rcases List.mem_append.1 hn with hn | hn
      · exact hinv.nsub n hn
      · exact (List.mem_singleton.1 hn) ▸ hS
    · intro p n
      by_cases hex : ∃ i ∈ List.range s.replicas, p = h (vnode_key X i)
      · rw [foldAdd_dget_some h X _ _ p (Or.inr hex)]
        constructor
        · intro heq
          have hnX : n = X := by
            injection heq with heq
            exact heq.symm
          subst hnX
          obtain ⟨i, hi, hpi⟩ := hex
          exact ⟨by rw [hfoldnodes]; simp, i, List.mem_range.1 hi, hpi⟩
        · rintro ⟨hn', i, hi, hpi⟩
          rw [hfoldnodes] at hn'
          rcases List.mem_append.1 hn' with hn' | hn'
          · obtain ⟨i0, hi0, hpi0⟩ := hex
            have hne : X ≠ n := fun hc => hmem (hc ▸ hn')
            exact absurd (hpi0.symm.trans hpi)
              (hcoll X hS n (hinv.nsub n hn') i0 hi0 i
                (List.mem_range.2 hi) (Or.inl hne))
          · rw [List.mem_singleton.1 hn']
      · have hall : ∀ i ∈ List.range s.replicas, p ≠ h (vnode_key X i) := by
          intro i hi hc
          exact hex ⟨i, hi, hc⟩
        rw [foldAdd_dget_other h X _ _ p hall]
        rw [hinv.map p n]
        constructor
        · rintro ⟨hn, i, hi, hpi⟩
          exact ⟨by rw [hfoldnodes]; exact List.mem_append.2 (Or.inl hn),
            i, hi, hpi⟩
        · rintro ⟨hn', i, hi, hpi⟩
          rw [hfoldnodes] at hn'
          rcases List.mem_append.1 hn' with hn' | hn'
          · exact ⟨hn', i, hi, hpi⟩
          · exfalso
            rw [List.mem_singleton] at hn'
            subst hn'
            exact hex ⟨i, List.mem_range.2 hi, hpi⟩
    · obtain ⟨hnd, hperm, hsort⟩ := hinv.wf
      have hdk := foldAdd_dkeys h X (List.range s.replicas)
        { s with nodes := sadd s.nodes X } hP hndP
      have hsp := foldAdd_sorted_perm h X (List.range s.replicas)
        { s with nodes := sadd s.nodes X }
      have hnotin : ∀ i ∈ List.range s.replicas,
          h (vnode_key X i) ∉ s.sorted_keys := by
        intro i hi hc
        have hmemk : h (vnode_key X i) ∈ dkeys s.ring := hperm.mem_iff.1 hc
        have hiss := (dget_isSome_iff_mem s.ring _).2 hmemk
        rw [hP i hi] at hiss
        simp at hiss
      refine ⟨?_, ?_, ?_⟩
      · rw [hdk]
        rw [List.nodup_append]
        refine ⟨hnd, hndP, ?_⟩
        intro a ha hb
        obtain ⟨i, hi, hpi⟩ := List.mem_map.1 hb
        have hiss := (dget_isSome_iff_mem s.ring a).2 ha
        rw [← hpi] at hiss
        rw [hP i hi] at hiss
        simp at hiss
      · rw [hdk]
        refine hsp.trans ?_
        refine (List.Perm.append_left _ hperm).trans ?_
        exact List.perm_append_comm
      · exact foldAdd_pairwise h X (List.range s.replicas) _ hsort hnotin hndP

theorem inv_remove (h : String → Nat) (R : Nat) (S : List String)
    (s : RingState) (X : String) (hcoll : noCollOn h R S)
    (hinv : RInv h R S s) : RInv h R S (remove_node h s X) := by
  have hrep := hinv.rep
  subst hrep
  by_cases hmem : X ∈ s.nodes
  · unfold remove_node
    rw [if_pos hmem]
    show RInv h s.replicas S
      ((List.range s.replicas).foldl (removeVnode h X)
        { s with nodes := s.nodes.erase X })
    have hXS : X ∈ S := hinv.nsub X hmem
    refine ⟨?_, ?_, ?_, ?_, ?_⟩
    · rw [foldRem_replicas]
    · rw [foldRem_nodes]
      exact hinv.ndup.erase X
    · intro n hn
      rw [foldRem_nodes] at hn
      exact hinv.nsub n (List.mem_of_mem_erase hn)
    · intro p n
      by_cases hex : ∃ i ∈ List.range s.replicas, p = h (vnode_key X i)
      · rw [foldRem_dget_none h X _ _ p (Or.inl hex)]
        constructor
        · intro hc
          exact absurd hc (by simp)
        · rintro ⟨hn', i, hi, hpi⟩
          rw [foldRem_nodes] at hn'
          have hnX : n ≠ X ∧ n ∈ s.nodes := hinv.ndup.mem_erase_iff.1 hn'
          obtain ⟨i0, hi0, hpi0⟩ := hex
          exact absurd (hpi0.symm.trans hpi)
            (hcoll X hXS n (hinv.nsub n hnX.2) i0 hi0 i
              (List.mem_range.2 hi) (Or.inl (Ne.symm hnX.1)))
      · have hall : ∀ i ∈ List.range s.replicas,
            p ≠ h (vnode_key X i) := by
          intro i hi hc
          exact hex ⟨i, hi, hc⟩
        rw [foldRem_dget_other h X _ _ p hall, hinv.map p n]
        constructor
        · rintro ⟨hn, i, hi, hpi⟩
          have hnX : n ≠ X := by
            intro hc
            exact hex ⟨i, List.mem_range.2 hi, hc ▸ hpi⟩
          rw [foldRem_nodes]
          exact ⟨hinv.ndup.mem_erase_iff.2 ⟨hnX, hn⟩, i, hi, hpi⟩
        · rintro ⟨hn', i, hi, hpi⟩
          rw [foldRem_nodes] at hn'
          exact ⟨List.mem_of_mem_erase hn', i, hi, hpi⟩
    · exact foldRem_WfR h X _ _ hinv.wf
  · unfold remove_node
    rw [if_neg hmem]
    exact hinv

theorem inv_foldOps (h : String → Nat) (R : Nat) (S : List String)
    (ops : List Op) :
    ∀ s, RInv h R S s → (∀ op ∈ ops, opNode op ∈ S) → noCollOn h R S →
      RInv h R S (ops.foldl (applyOp h) s) := by
  induction ops with
  | nil =>
    intro s hs _ _
    exact hs
  | cons op1 t ih =>
    intro s hs hops hcoll
    rw [List.foldl_cons]
    refine ih _ ?_ (fun o ho => hops o (List.mem_cons_of_mem op1 ho)) hcoll
    cases op1 with
    | add n =>
      exact inv_add h R S s n (hops _ (List.mem_cons_self _ _)) hcoll hs
    | rem n => exact inv_remove h R S s n hcoll hs

theorem inv_runOps (h : String → Nat) (R : Nat) (ops : List Op)
    (hcoll : noCollOn h R (opNodes ops)) :
    RInv h R (opNodes ops) (runOps h R ops) :=
  inv_foldOps h R (opNodes ops) ops (emptyRing R)
    (inv_empty h R (opNodes ops))
    (fun _op ho => List.mem_map_of_mem opNode ho) hcoll

/-! ### Consequences for `get_node` -/

theorem get_nodeCH_eq_some (h : String → Nat) (s : RingState) (key : String)
    (pos : Nat) (n : String) (hre : ¬ s.ring = [])
    (hg : s.sorted_keys.get?
        (if bl s.sorted_keys (h key) = s.sorted_keys.length then 0
         else bl s.sorted_keys (h key)) = some pos)
    (hd : dget s.ring pos = some n) :
    get_nodeCH h s key = some (some n) := by
  simp only [get_nodeCH, if_neg hre]
  rw [hg]
  show (match dget s.ring pos with
        | none => none
        | some n => some (some n)) = some (some n)
  rw [hd]

theorem get_nodeSH_eq_some (h : String → Nat) (s : RingState) (key : String)
    (pos : Nat) (n : String) (hre : ¬ s.ring = [])
    (hg : s.sorted_keys.get?
        (if br s.sorted_keys (h key) = s.sorted_keys.length then 0
         else br s.sorted_keys (h key)) = some pos)
    (hd : dget s.ring pos = some n) :
    get_nodeSH h s key = some (some n) := by
  simp only [get_nodeSH, if_neg hre]
  rw [hg]
  show (match dget s.ring pos with
        | none => none
        | some n => some (some n)) = some (some n)
  rw [hd]

theorem rinv_get_total (h : String → Nat) (R : Nat) (S : List String)
    (s : RingState) (hinv : RInv h R S s) (hR : 0 < R)
    (hne : s.nodes ≠ []) (key : String) :
    (∃ n, get_nodeCH h s key = some (some n) ∧ n ∈ s.nodes)
    ∧ (∃ n, get_nodeSH h s key = some (some n) ∧ n ∈ s.nodes) := by
  obtain ⟨X, hX⟩ : ∃ X, X ∈ s.nodes := by
    cases hns : s.nodes with
    | nil => exact absurd hns hne
    | cons a t => exact ⟨a, List.mem_cons_self a t⟩
  have hdX : dget s.ring (h (vnode_key X 0)) = some X :=
    (hinv.map _ _).2 ⟨hX, 0, hR, rfl⟩
  have hre : ¬ s.ring = [] := by
    intro hc
    rw [hc] at hdX
    simp [dget] at hdX
  obtain ⟨hnd, hperm, hsort⟩ := hinv.wf
  have hsk : s.sorted_keys ≠ [] := by
    intro hc
    have hmemk : h (vnode_key X 0) ∈ dkeys s.ring :=
      (dget_isSome_iff_mem _ _).1 (by simp [hdX])
    have := hperm.mem_iff.2 hmemk
    rw [hc] at this
    simp at this
  have hlen : 0 < s.sorted_keys.length := List.length_pos.2 hsk
  constructor
  · have hidx : (if bl s.sorted_keys (h key) = s.sorted_keys.length then 0
        else bl s.sorted_keys (h key)) < s.sorted_keys.length := by
      by_cases hc : bl s.sorted_keys (h key) = s.sorted_keys.length
      · rw [if_pos hc]
        exact hlen
      · rw [if_neg hc]
        exact lt_of_le_of_ne (bl_le_length _ _) hc
    obtain ⟨pos, hpos⟩ : ∃ pos, s.sorted_keys.get?
        (if bl s.sorted_keys (h key) = s.sorted_keys.length then 0
         else bl s.sorted_keys (h key)) = some pos := by
      cases hg : s.sorted_keys.get?
          (if bl s.sorted_keys (h key) = s.sorted_keys.length then 0
           else bl s.sorted_keys (h key)) with
      | some p => exact ⟨p, rfl⟩
      | none =>
        rw [List.get?_eq_none] at hg
        omega
    have hpk : pos ∈ dkeys s.ring := hperm.mem_iff.1 (List.get?_mem hpos)
    obtain ⟨n, hn⟩ := Option.isSome_iff_exists.1
      ((dget_isSome_iff_mem _ _).2 hpk)
    exact ⟨n, get_nodeCH_eq_some h s key pos n hre hpos hn,
      ((hinv.map pos n).1 hn).1⟩
  · have hidx : (if br s.sorted_keys (h key) = s.sorted_keys.length then 0
        else br s.sorted_keys (h key)) < s.sorted_keys.length := by
      by_cases hc : br s.sorted_keys (h key) = s.sorted_keys.length
      · rw [if_pos hc]
        exact hlen
      · rw [if_neg hc]
        exact lt_of_le_of_ne (br_le_length _ _) hc
    obtain ⟨pos, hpos⟩ : ∃ pos, s.sorted_keys.get?
        (if br s.sorted_keys (h key) = s.sorted_keys.length then 0
         else br s.sorted_keys (h key)) = some pos := by
      cases hg : s.sorted_keys.get?
          (if br s.sorted_keys (h key) = s.sorted_keys.length then 0
           else br s.sorted_keys (h key)) with
      | some p => exact ⟨p, rfl⟩
      | none =>
        rw [List.get?_eq_none] at hg
        omega
    have hpk : pos ∈ dkeys s.ring := hperm.mem_iff.1 (List.get?_mem hpos)
    obtain ⟨n, hn⟩ := Option.isSome_iff_exists.1
      ((dget_isSome_iff_mem _ _).2 hpk)
    exact ⟨n, get_nodeSH_eq_some h s key pos n hre hpos hn,
      ((hinv.map pos n).1 hn).1⟩

theorem rinv_ring_nil_iff (h : String → Nat) (R : Nat) (S : List String)
    (s : RingState) (hinv : RInv h R S s) (hR : 0 < R) :
    s.ring = [] ↔ s.nodes = [] := by
  constructor
  · intro hc
    cases hns : s.nodes with
    | nil => rfl
    | cons a t =>
      have hdX : dget s.ring (h (vnode_key a 0)) = some a :=
        (hinv.map _ _).2 ⟨by rw [hns]; exact List.mem_cons_self a t, 0, hR,
          rfl⟩
      rw [hc] at hdX
      simp [dget] at hdX
  · intro hc
    cases hr : s.ring with
    | nil => rfl
    | cons kv t =>
      obtain ⟨p, n, hpn⟩ := dget_exists_of_ne_nil s.ring (by rw [hr]; simp)
      have := ((hinv.map p n).1 hpn).1
      rw [hc] at this
      simp at this

theorem rinv_get_none_iff (h : String → Nat) (R : Nat) (S : List String)
    (s : RingState) (hinv : RInv h R S s) (hR : 0 < R) (key : String) :
    (get_nodeCH h s key = some none ↔ s.nodes = [])
    ∧ (get_nodeSH h s key = some none ↔ s.nodes = []) := by
  constructor
  · constructor
    · intro hg
      by_contra hne
      obtain ⟨n, hn, _⟩ := (rinv_get_total h R S s hinv hR hne key).1
      rw [hg] at hn
      simp at hn
    · intro hc
      have hr : s.ring = [] := (rinv_ring_nil_iff h R S s hinv hR).2 hc
      simp only [get_nodeCH, if_pos hr]
  · constructor
    · intro hg
      by_contra hne
      obtain ⟨n, hn, _⟩ := (rinv_get_total h R S s hinv hR hne key).2
      rw [hg] at hn
      simp at hn
    · intro hc
      have hr : s.ring = [] := (rinv_ring_nil_iff h R S s hinv hR).2 hc
      simp only [get_nodeSH, if_pos hr]

/-! ### Characterization of the two lookup policies -/

theorem bl_eq_length_of_find?_none (l : List Nat) (x : Nat)
    (hf : l.find? (fun q => decide (x ≤ q)) = none) : bl l x = l.length := by
  refine bl_eq_length_of_forall_lt l x ?_
  intro y hy
  have := List.find?_eq_none.1 hf y hy
  simp at this
  omega

theorem br_eq_length_of_find?_none (l : List Nat) (x : Nat)
    (hf : l.find? (fun q => decide (x < q)) = none) : br l x = l.length := by
  refine br_eq_length_of_forall_le l x ?_
  intro y hy
  have := List.find?_eq_none.1 hf y hy
  simp at this
  omega

theorem get_nodeCH_policyA (h : String → Nat) (s : RingState) (key : String)
    (hsk : s.sorted_keys ≠ []) (hre : ¬ s.ring = []) :
    ∃ q, specSuccA s.sorted_keys (h key) = some q
      ∧ get_nodeCH h s key = Option.map some (dget s.ring q) := by
  cases hf : s.sorted_keys.find? (fun q => decide (h key ≤ q)) with
  | some q =>
    refine ⟨q, by rw [specSuccA, hf], ?_⟩
    have hget : s.sorted_keys.get? (bl s.sorted_keys (h key)) = some q := by
      rw [get?_bl_eq_find?, hf]
    have hlt : bl s.sorted_keys (h key) < s.sorted_keys.length := by
      by_contra hc
      have hle := bl_le_length s.sorted_keys (h key)
      have : bl s.sorted_keys (h key) = s.sorted_keys.length := by omega
      rw [List.get?_eq_none.2 (by omega)] at hget
      exact absurd hget (by simp)
    have hne : ¬ bl s.sorted_keys (h key) = s.sorted_keys.length := by omega
    simp only [get_nodeCH, if_neg hre, if_neg hne]
    rw [hget]
    show (match dget s.ring q with
          | none => none
          | some n => some (some n)) = Option.map some (dget s.ring q)
    cases hd : dget s.ring q with
    | none => rfl
    | some n => rfl
  | none =>
    obtain ⟨q0, rest, hqs⟩ : ∃ q0 rest, s.sorted_keys = q0 :: rest := by
      cases hc : s.sorted_keys with
      | nil => exact absurd hc hsk
      | cons a t => exact ⟨a, t, rfl⟩
    refine ⟨q0, by rw [specSuccA, hf, hqs]; rfl, ?_⟩
    have hbl : bl s.sorted_keys (h key) = s.sorted_keys.length :=
      bl_eq_length_of_find?_none _ _ hf
    simp only [get_nodeCH, if_neg hre, if_pos hbl]
    rw [hqs]
    show (match dget s.ring q0 with
          | none => none
          | some n => some (some n)) = Option.map some (dget s.ring q0)
    cases hd : dget s.ring q0 with
    | none => rfl
    | some n => rfl

theorem get_nodeSH_policyB (h : String → Nat) (s : RingState) (key : String)
    (hsk : s.sorted_keys ≠ []) (hre : ¬ s.ring = []) :
    ∃ q, specSuccB s.sorted_keys (h key) = some q
      ∧ get_nodeSH h s key = Option.map some (dget s.ring q) := by
  cases hf : s.sorted_keys.find? (fun q => decide (h key < q)) with
  | some q =>
    refine ⟨q, by rw [specSuccB, hf], ?_⟩
    have hget : s.sorted_keys.get? (br s.sorted_keys (h key)) = some q := by
      rw [get?_br_eq_find?, hf]
    have hlt : br s.sorted_keys (h key) < s.sorted_keys.length := by
      by_contra hc
      have hle := br_le_length s.sorted_keys (h key)
      rw [List.get?_eq_none.2 (by omega)] at hget
      exact absurd hget (by simp)
    have hne : ¬ br s.sorted_keys (h key) = s.sorted_keys.length := by omega
    simp only [get_nodeSH, if_neg hre, if_neg hne]
    rw [hget]
    show (match dget s.ring q with
          | none => none
          | some n => some (some n)) = Option.map some (dget s.ring q)
    cases hd : dget s.ring q with
    | none => rfl
    | some n => rfl
  | none =>
    obtain ⟨q0, rest, hqs⟩ : ∃ q0 rest, s.sorted_keys = q0 :: rest := by
      cases hc : s.sorted_keys with
      | nil => exact absurd hc hsk
      | cons a t => exact ⟨a, t, rfl⟩
    refine ⟨q0, by rw [specSuccB, hf, hqs]; rfl, ?_⟩
    have hbr : br s.sorted_keys (h key) = s.sorted_keys.length :=
      br_eq_length_of_find?_none _ _ hf
    simp only [get_nodeSH, if_neg hre, if_pos hbr]
    rw [hqs]
    show (match dget s.ring q0 with
          | none => none
          | some n => some (some n)) = Option.map some (dget s.ring q0)
    cases hd : dget s.ring q0 with
    | none => rfl
    | some n => rfl

/-! ### Range bounds for the two hash functions -/

theorem leBytes4_lt (w : Nat) : ∀ x ∈ leBytes4 w, x < 256 := by
  intro x hx
  simp [leBytes4] at hx
  rcases hx with h | h | h | h
  all_goals exact h ▸ Nat.mod_lt _ (by omega)

theorem beBytes4_lt (w : Nat) : ∀ x ∈ beBytes4 w, x < 256 := by
  intro x hx
  simp [beBytes4] at hx
  rcases hx with h | h | h | h
  all_goals exact h ▸ Nat.mod_lt _ (by omega)

theorem beNat_aux_lt (l : List Nat) :
    (∀ b ∈ l, b < 256) → ∀ acc : Nat,
      List.foldl (fun acc b => acc * 256 + b) acc l
        < (acc + 1) * 256 ^ l.length := by
  induction l with
  | nil =>
    intro _ acc
    simp
  | cons b t ih =>
    intro hb acc
    have hb0 : b < 256 := hb b (List.mem_cons_self b t)
    have iht := ih (fun x hx => hb x (List.mem_cons_of_mem b hx))
      (acc * 256 + b)
    have hle : acc * 256 + b + 1 ≤ (acc + 1) * 256 := by omega
    simp only [List.foldl_cons]
    calc List.foldl (fun acc b => acc * 256 + b) (acc * 256 + b) t
        < (acc * 256 + b + 1) * 256 ^ t.length := iht
      _ ≤ ((acc + 1) * 256) * 256 ^ t.length :=
          Nat.mul_le_mul_right _ hle
      _ = (acc + 1) * 256 ^ (b :: t).length := by
          rw [List.length_cons]
          ring

theorem beNat_lt (l : List Nat) (hb : ∀ b ∈ l, b < 256) :
    beNat l < 256 ^ l.length := by
  have := beNat_aux_lt l hb 0
  simpa [beNat] using this

theorem md5Digest_lt (msg : List Nat) : ∀ x ∈ md5Digest msg, x < 256 := by
  intro x hx
  unfold md5Digest at hx
  rcases hw : md5Words msg with ⟨a, b, c, d⟩
  rw [hw] at hx
  simp only [List.mem_append] at hx
  rcases hx with ((hx | hx) | hx) | hx
  · exact leBytes4_lt a x hx
  · exact leBytes4_lt b x hx
  · exact leBytes4_lt c x hx
  · exact leBytes4_lt d x hx

theorem md5Digest_length (msg : List Nat) : (md5Digest msg).length = 16 := by
  unfold md5Digest
  rcases hw : md5Words msg with ⟨a, b, c, d⟩
  simp [leBytes4]

theorem sha1Digest_lt (msg : List Nat) : ∀ x ∈ sha1Digest msg, x < 256 := by
  intro x hx
  unfold sha1Digest at hx
  rcases hw : sha1Words msg with ⟨a, b, c, d, e⟩
  rw [hw] at hx
  simp only [List.mem_append] at hx
  rcases hx with (((hx | hx) | hx) | hx) | hx
  · exact beBytes4_lt a x hx
  · exact beBytes4_lt b x hx
  · exact beBytes4_lt c x hx
  · exact beBytes4_lt d x hx
  · exact beBytes4_lt e x hx

theorem hashSH_lt (key : String) : hashSH key < 2 ^ 128 := by
  have h1 := beNat_lt (md5Digest (utf8 key)) (md5Digest_lt _)
  rw [md5Digest_length] at h1
  have h2 : (256 : Nat) ^ 16 = 2 ^ 128 := by norm_num
  rw [h2] at h1
  exact h1

theorem hashCH_lt (key : String) : hashCH key < 2 ^ 64 := by
  have hmem : ∀ x ∈ (sha1Digest (utf8 key)).take 8, x < 256 :=
    fun x hx => sha1Digest_lt _ x (List.mem_of_mem_take hx)
  have h1 := beNat_lt _ hmem
  have hlen : ((sha1Digest (utf8 key)).take 8).length ≤ 8 := by
    rw [List.length_take]
    omega
  have h2 : (256 : Nat) ^ ((sha1Digest (utf8 key)).take 8).length
      ≤ 256 ^ 8 := Nat.pow_le_pow_right (by omega) hlen
  have h3 : (256 : Nat) ^ 8 = 2 ^ 64 := by norm_num
  calc hashCH key < 256 ^ ((sha1Digest (utf8 key)).take 8).length := h1
    _ ≤ 256 ^ 8 := h2
    _ = 2 ^ 64 := h3

/-! ### The migration loop of `remove_node_safe` -/

theorem migStep_eq (h : String → Nat) (ring' : RingState)
    (stor : List (Option String × List (String × String)))
    (kv : String × String) (m0 : String)
    (hm0 : get_nodeSH h ring' kv.1 = some (some m0)) :
    ∃ stor1, migStep h ring' (some stor) kv = some stor1
      ∧ (∃ inner, dget stor1 (some m0) = some (dinsert inner kv.1 kv.2)
           ∧ ∀ st0, dget stor (some m0) = some st0 → inner = st0)
      ∧ (∀ q, q ≠ some m0 → dget stor1 q = dget stor q) := by
  have hstep : migStep h ring' (some stor) kv
      = some (dinsert
          (if (dget stor (some m0)).isSome then stor
           else dinsert stor (some m0) [])
          (some m0)
          (dinsert
            ((dget (if (dget stor (some m0)).isSome then stor
                    else dinsert stor (some m0) []) (some m0)).getD [])
            kv.1 kv.2)) := by
    unfold migStep
    rw [hm0]
  by_cases hp : (dget stor (some m0)).isSome
  · obtain ⟨st0', hst0'⟩ := Option.isSome_iff_exists.1 hp
    rw [if_pos hp, hst0'] at hstep
    simp only [Option.getD_some] at hstep
    refine ⟨_, hstep, ⟨st0', ?_, ?_⟩, ?_⟩
    · rw [dget_dinsert, if_pos rfl]
    · intro st0 hst0
      exact Option.some.inj (hst0'.symm.trans hst0)
    · intro q hq
      rw [dget_dinsert, if_neg (fun hc => hq hc.symm)]
  · have hnone : dget stor (some m0) = none := by
      cases hg : dget stor (some m0) with
      | none => rfl
      | some w => rw [hg] at hp; simp at hp
    rw [if_neg hp] at hstep
    have hg0 : dget (dinsert stor (some m0) []) (some m0)
        = some ([] : List (String × String)) := by
      rw [dget_dinsert, if_pos rfl]
    rw [hg0] at hstep
    simp only [Option.getD_some] at hstep
    refine ⟨_, hstep, ⟨[], ?_, ?_⟩, ?_⟩
    · rw [dget_dinsert, if_pos rfl]
    · intro st0 hst0
      rw [hnone] at hst0
      exact absurd hst0 (by simp)
    · intro q hq
      rw [dget_dinsert, if_neg (fun hc => hq hc.symm),
        dget_dinsert, if_neg (fun hc => hq hc.symm)]

theorem migrate_fold (h : String → Nat) (ring' : RingState) (R : Nat)
    (S : List String) (hinv : RInv h R S ring') (hR : 0 < R)
    (hne : ring'.nodes ≠ []) (data : List (String × String)) :
    ∀ (stor : List (Option String × List (String × String))),
      (data.map Prod.fst).Nodup →
      ∃ storF, data.foldl (migStep h ring') (some stor) = some storF
        ∧ (∀ kv ∈ data, ∃ m, get_nodeSH h ring' kv.1 = some (some m)
             ∧ m ∈ ring'.nodes
             ∧ ∃ st', dget storF (some m) = some st'
             ∧ dget st' kv.1 = some kv.2)
        ∧ (∀ q k, k ∉ data.map Prod.fst →
             ∀ v st0, dget stor q = some st0 → dget st0 k = some v →
               ∃ st1, dget storF q = some st1 ∧ dget st1 k = some v) := by
  induction data with
  | nil =>
    intro stor _
    exact ⟨stor, rfl, by simp, fun q k _ v st0 h1 h2 => ⟨st0, h1, h2⟩⟩
  | cons kv t ih =>
    intro stor hnd
    simp only [List.map_cons, List.nodup_cons] at hnd
    obtain ⟨m0, hm0, hm0mem⟩ :=
      (rinv_get_total h R S ring' hinv hR hne kv.1).2
    obtain ⟨stor1, hstep, ⟨inner, hinner, hinnereq⟩, hother⟩ :=
      migStep_eq h ring' stor kv m0 hm0
    obtain ⟨storF, hfold, hpairs, hpres⟩ := ih stor1 hnd.2
    refine ⟨storF, ?_, ?_, ?_⟩
    · rw [List.foldl_cons, hstep]
      exact hfold
    · intro kv' hkv'
      rcases List.mem_cons.1 hkv' with hkv' | hkv'
      · subst hkv'
        refine ⟨m0, hm0, hm0mem, ?_⟩
        have hs2 : dget (dinsert inner kv'.1 kv'.2) kv'.1 = some kv'.2 := by
          rw [dget_dinsert, if_pos rfl]
        exact hpres (some m0) kv'.1 hnd.1 kv'.2 _ hinner hs2
      · exact hpairs kv' hkv'
    · intro q k hk v st0 h1 h2
      have hk1 : k ≠ kv.1 := by
        intro hc
        exact hk (by rw [List.map_cons, hc]; exact List.mem_cons_self _ _)
      have hk2 : k ∉ t.map Prod.fst := by
        intro hc
        exact hk (by rw [List.map_cons]; exact List.mem_cons_of_mem _ hc)
      by_cases hqm : q = some m0
      · subst hqm
        have hin : inner = st0 := hinnereq st0 h1
        subst hin
        refine hpres (some m0) k hk2 v (dinsert inner kv.1 kv.2) hinner ?_
        rw [dget_dinsert, if_neg (fun hc => hk1 hc.symm)]
        exact h2
      · have hq1 : dget stor1 q = some st0 := by
          rw [hother q hqm]
          exact h1
        exact hpres q k hk2 v st0 hq1 h2

theorem remove_node_nodes (h : String → Nat) (s : RingState) (X : String)
    (hmem : X ∈ s.nodes) : (remove_node h s X).nodes = s.nodes.erase X := by
  unfold remove_node
  rw [if_pos hmem, foldRem_nodes]

/-! ### Minimality of the first qualifying position on a sorted list -/

theorem find?_ge_minimal (l : List Nat) (x : Nat)
    (hs : l.Pairwise (· < ·)) (q : Nat)
    (hf : l.find? (fun r => decide (x ≤ r)) = some q) :
    ∀ r ∈ l, x ≤ r → q ≤ r := by
  induction l with
  | nil => simp at hf
  | cons y t ih =>
    rw [List.pairwise_cons] at hs
    by_cases hxy : x ≤ y
    · simp only [List.find?_cons, decide_eq_true hxy] at hf
      injection hf with hf
      intro r hr hxr
      rcases List.mem_cons.1 hr with hr | hr
      · exact hf ▸ hr ▸ Nat.le_refl _
      · exact hf ▸ Nat.le_of_lt (hs.1 r hr)
    · simp only [List.find?_cons, decide_eq_false hxy] at hf
      intro r hr hxr
      rcases List.mem_cons.1 hr with hr | hr
      · exact absurd (hr ▸ hxr) hxy
      · exact ih hs.2 hf r hr hxr

theorem find?_gt_minimal (l : List Nat) (x : Nat)
    (hs : l.Pairwise (· < ·)) (q : Nat)
    (hf : l.find? (fun r => decide (x < r)) = some q) :
    ∀ r ∈ l, x < r → q ≤ r := by
  induction l with
  | nil => simp at hf
  | cons y t ih =>
    rw [List.pairwise_cons] at hs
    by_cases hxy : x < y
    · simp only [List.find?_cons, decide_eq_true hxy] at hf
      injection hf with hf
      intro r hr hxr
      rcases List.mem_cons.1 hr with hr | hr
      · exact hf ▸ hr ▸ Nat.le_refl _
      · exact hf ▸ Nat.le_of_lt (hs.1 r hr)
    · simp only [List.find?_cons, decide_eq_false hxy] at hf
      intro r hr hxr
      rcases List.mem_cons.1 hr with hr | hr
      · exact absurd (hr ▸ hxr) hxy
      · exact ih hs.2 hf r hr hxr

/-! ### The full migration theorem for `remove_node_safe` -/

/-- C10 (amended): for a storage service whose ring was built collision-free
with replica count > 0, if node `X` is present in both the storage map and
the ring's active set and some other node is active, then
`remove_node_safe` succeeds and afterwards: `X` is no longer active, `X`'s
per-node store is gone from the storage map, every pair previously stored
under `X` is stored under the node `get_node` returns for its key on the
post-removal ring, and every pair stored under another node whose key does
NOT occur in `X`'s store is untouched.  (The claim's stronger clause — that
no pair under another node is ever removed — is false: migration overwrites
same-key entries at the destination store, see the counterexample.) -/
theorem remove_node_safe_total (h : String → Nat) (R : Nat)
    (S : List String) (svc : StorageService) (X : String)
    (data : List (String × String)) (hcoll : noCollOn h R S)
    (hinv : RInv h R S svc.ring) (hR : 0 < R)
    (hXmem : X ∈ svc.ring.nodes)
    (hother : ∃ m ∈ svc.ring.nodes, m ≠ X)
    (hdata : dget svc.storage (some X) = some data)
    (hnd : (data.map Prod.fst).Nodup) :
    ∃ svc', remove_node_safe h svc X = some svc'
      ∧ X ∉ svc'.ring.nodes
      ∧ dget svc'.storage (some X) = none
      ∧ (∀ kv ∈ data, ∃ m, get_nodeSH h svc'.ring kv.1 = some (some m)
           ∧ ∃ st', dget svc'.storage (some m) = some st'
           ∧ dget st' kv.1 = some kv.2)
      ∧ (∀ q k, q ≠ some X → k ∉ data.map Prod.fst →
           ∀ v st0, dget svc.storage q = some st0 → dget st0 k = some v →
             ∃ st1, dget svc'.storage q = some st1 ∧ dget st1 k = some v)
    := by
  have hinv' : RInv h R S (remove_node h svc.ring X) :=
    inv_remove h R S svc.ring X hcoll hinv
  have hnodes' : (remove_node h svc.ring X).nodes = svc.ring.nodes.erase X :=
    remove_node_nodes h svc.ring X hXmem
  have hXnot : X ∉ (remove_node h svc.ring X).nodes := by
    rw [hnodes']
    intro hc
    exact (hinv.ndup.mem_erase_iff.1 hc).1 rfl
  have hne' : (remove_node h svc.ring X).nodes ≠ [] := by
    obtain ⟨m, hm, hmX⟩ := hother
    have : m ∈ (remove_node h svc.ring X).nodes := by
      rw [hnodes']
      exact hinv.ndup.mem_erase_iff.2 ⟨hmX, hm⟩
    exact List.ne_nil_of_mem this
  obtain ⟨storF, hfold, hpairs, hpres⟩ :=
    migrate_fold h (remove_node h svc.ring X) R S hinv' hR hne' data
      svc.storage hnd
  refine ⟨StorageService.mk (remove_node h svc.ring X)
    (ddel storF (some X)), ?_, hXnot, ?_, ?_, ?_⟩
  · unfold remove_node_safe
    rw [hdata]
    show (match data.foldl (migStep h (remove_node h svc.ring X))
            (some svc.storage) with
          | none => none
          | some stor =>
            some (StorageService.mk (remove_node h svc.ring X)
                    (ddel stor (some X))))
        = some (StorageService.mk (remove_node h svc.ring X)
                  (ddel storF (some X)))
    rw [hfold]
  · show dget (ddel storF (some X)) (some X) = none
    rw [dget_ddel, if_pos rfl]
  · intro kv hkv
    obtain ⟨m, hm, hmmem, st', hst', hk⟩ := hpairs kv hkv
    refine ⟨m, hm, st', ?_, hk⟩
    show dget (ddel storF (some X)) (some m) = some st'
    have hmX : ¬ (some X = some m) := by
      intro hc
      injection hc with hc
      exact hXnot (hc ▸ hmmem)
    rw [dget_ddel, if_neg hmX]
    exact hst'
  · intro q k hqX hk v st0 h1 h2
    obtain ⟨st1, hst1, hst1k⟩ := hpres q k hk v st0 h1 h2
    refine ⟨st1, ?_, hst1k⟩
    show dget (ddel storF (some X)) q = some st1
    rw [dget_ddel, if_neg (fun hc => hqX hc.symm)]
    exact hst1

set_option maxRecDepth 200000

/-! ### Concrete states for witnesses and counterexamples -/

/-- The `simple_hashing.py` ring with one virtual node per physical node
and active nodes "A" and "B" (real MD5 positions). -/
def stateC1 : RingState :=
  add_nodeSH hashSH (add_nodeSH hashSH (emptyRing 1) "A") "B"

/-- The `consistent_hashing.py` ring after the call sequence
add_node "A"; add_node "A"; add_node "B"; remove_node "A" with one virtual
node per physical node (real SHA-1 positions).  The double add leaves a
duplicate position in `sorted_keys`; the removal then pops only one copy
and deletes the dict entry, stranding an orphan position. -/
def stateC2 : RingState :=
  remove_node hashCH
    (add_nodeCH hashCH
      (add_nodeCH hashCH (add_nodeCH hashCH (emptyRing 1) "A") "A") "B") "A"

/-- A hash function on which every input collides at position 5, used to
exhibit the behavior of `remove_node` in the hash-collision case the
specification (section 4.2) legislates about. -/
def hashColl : String → Nat := fun _ => 5

/-- Nodes "A" and "B" added under the all-colliding hash: the single
position 5 is owned by "B" (last write wins) while `sorted_keys` holds a
duplicate entry. -/
def stateC4 : RingState :=
  add_nodeSH hashColl (add_nodeSH hashColl (emptyRing 1) "A") "B"

/-- A storage service over `stateC1` in which the key "x" is stored under
both nodes with different values (a state reachable by writing "x", a
topology change, and writing "x" again). -/
def svcC10 : StorageService :=
  ⟨stateC1, [(some "A", [("x", "1")]), (some "B", [("x", "2")])]⟩

/-- A constant hash, for small witnesses. -/
def hash3 : String → Nat := fun _ => 3

/-- A constant hash larger than every placed position of `stateW7`. -/
def hash100 : String → Nat := fun _ => 100

/-- A tiny injective-on-the-used-virtual-node-keys hash for witnesses. -/
def hashW : String → Nat := fun s => if s = "A#0" then 10 else 20

/-- A one-node, one-position ring used by several witnesses. -/
def stateW1 : RingState := ⟨1, [(5, "A")], [5], ["A"]⟩

/-- A two-node ring whose smallest position 3 is owned by "A". -/
def stateW7 : RingState := ⟨1, [(3, "A"), (7, "B")], [3, 7], ["A", "B"]⟩

/-- The guarded call sequence add "A"; add "B". -/
def opsW : List Op := [Op.add "A", Op.add "B"]

/-- A storage service whose ring was built by `opsW` under `hashW` and
which stores the pair ("x", "1") under node "A". -/
def svcW : StorageService :=
  ⟨runOps hashW 1 opsW, [(some "A", [("x", "1")])]⟩

/-! ### C1 -/

/-- C1 (amended): on any well-formed non-empty ring,
`consistent_hashing.py`'s `get_node` returns the value the mapping holds at
the smallest placed position that is ≥ the key's hash, wrapping to the
first placed position when none qualifies (search policy A), while
`simple_hashing.py`'s `get_node` does the same for the smallest placed
position that is strictly greater than the key's hash (search policy B).
The claim as frozen asserts policy A for both files; the counterexample
shows `simple_hashing.py` follows policy B instead. -/
theorem c1_get_node_search_policy (h : String → Nat) (s : RingState)
    (key : String) (hsort : s.sorted_keys.Pairwise (· < ·))
    (hsk : s.sorted_keys ≠ []) (hre : ¬ s.ring = []) :
    (∃ q, specSuccA s.sorted_keys (h key) = some q
       ∧ (∀ r ∈ s.sorted_keys, h key ≤ r → q ≤ r)
       ∧ get_nodeCH h s key = Option.map some (dget s.ring q))
    ∧ (∃ q, specSuccB s.sorted_keys (h key) = some q
       ∧ (∀ r ∈ s.sorted_keys, h key < r → q ≤ r)
       ∧ get_nodeSH h s key = Option.map some (dget s.ring q)) := by
  constructor
  · obtain ⟨q, hq, hg⟩ := get_nodeCH_policyA h s key hsk hre
    refine ⟨q, hq, ?_, hg⟩
    intro r hr hxr
    unfold specSuccA at hq
    cases hf : s.sorted_keys.find? (fun t => decide (h key ≤ t)) with
    | some q' =>
      rw [hf] at hq
      have hq2 : some q' = some q := hq
      injection hq2 with hq2
      exact hq2 ▸ find?_ge_minimal _ _ hsort q' hf r hr hxr
    | none =>
      have hnone := List.find?_eq_none.1 hf r hr
      simp at hnone
      omega
  · obtain ⟨q, hq, hg⟩ := get_nodeSH_policyB h s key hsk hre
    refine ⟨q, hq, ?_, hg⟩
    intro r hr hxr
    unfold specSuccB at hq
    cases hf : s.sorted_keys.find? (fun t => decide (h key < t)) with
    | some q' =>
      rw [hf] at hq
      have hq2 : some q' = some q := hq
      injection hq2 with hq2
      exact hq2 ▸ find?_gt_minimal _ _ hsort q' hf r hr hxr
    | none =>
      have hnone := List.find?_eq_none.1 hf r hr
      simp at hnone
      omega

/-- C1 witness: the amended theorem applied at a concrete ring. -/
theorem c1_get_node_search_policy_witness :
    (∃ q, specSuccA stateW1.sorted_keys (hash3 "k") = some q
       ∧ (∀ r ∈ stateW1.sorted_keys, hash3 "k" ≤ r → q ≤ r)
       ∧ get_nodeCH hash3 stateW1 "k"
           = Option.map some (dget stateW1.ring q))
    ∧ (∃ q, specSuccB stateW1.sorted_keys (hash3 "k") = some q
       ∧ (∀ r ∈ stateW1.sorted_keys, hash3 "k" < r → q ≤ r)
       ∧ get_nodeSH hash3 stateW1 "k"
           = Option.map some (dget stateW1.ring q)) :=
  c1_get_node_search_policy hash3 stateW1 "k" (by decide) (by decide)
    (by decide)

/-- C1 counterexample: on the `simple_hashing.py` ring `stateC1`, the key
"A#0" hashes exactly onto node "A"'s placed position.  Policy A (smallest
position ≥ the hash) selects that position, owned by "A", but `get_node`
returns "B": `simple_hashing.py` does not implement policy A. -/
theorem c1_policyA_cex :
    (specSuccA stateC1.sorted_keys (hashSH "A#0")).bind (dget stateC1.ring)
        = some "A"
    ∧ get_nodeSH hashSH stateC1 "A#0" = some (some "B") := by decide

/-! ### C2 -/

/-- C2 (amended): for every ring reached from empty by guarded `add_node`
and `remove_node` calls with replica count > 0 and no hash collision among
the virtual-node keys of the nodes named in the sequence, and for every
key, both files' `get_node` return a node of the active set (in
particular, they do not crash and do not return `None`).  The claim as
frozen quantifies over all call sequences; the counterexample shows that
re-adding an already-active node through `consistent_hashing.py`'s
unguarded `add_node` and then removing it leaves a state whose lookup
raises a `KeyError`. -/
theorem c2_get_node_total_noColl (h : String → Nat) (R : Nat)
    (ops : List Op) (key : String) (hR : 0 < R)
    (hcoll : noCollOn h R (opNodes ops))
    (hne : (runOps h R ops).nodes ≠ []) :
    (∃ n, get_nodeCH h (runOps h R ops) key = some (some n)
       ∧ n ∈ (runOps h R ops).nodes)
    ∧ (∃ n, get_nodeSH h (runOps h R ops) key = some (some n)
       ∧ n ∈ (runOps h R ops).nodes) :=
  rinv_get_total h R (opNodes ops) (runOps h R ops)
    (inv_runOps h R ops hcoll) hR hne key

/-- C2 witness: the amended theorem applied to the one-node ring built by
add "A" under the real SHA-1 hash. -/
theorem c2_get_node_total_noColl_witness :
    (∃ n, get_nodeCH hashCH (runOps hashCH 1 [Op.add "A"]) "k"
        = some (some n) ∧ n ∈ (runOps hashCH 1 [Op.add "A"]).nodes)
    ∧ (∃ n, get_nodeSH hashCH (runOps hashCH 1 [Op.add "A"]) "k"
        = some (some n) ∧ n ∈ (runOps hashCH 1 [Op.add "A"]).nodes) :=
  c2_get_node_total_noColl hashCH 1 [Op.add "A"] "k" (by decide)
    (by decide) (by decide)

/-- C2 counterexample: `stateC2` is reached by the call sequence
add "A"; add "A"; add "B"; remove "A" against `consistent_hashing.py` with
the real SHA-1 hash and one virtual node per node.  Node "B" is active,
yet `get_node("k")` crashes (the orphaned position left by the double add
is found by the search but is no longer a key of the mapping — a
`KeyError`, modelled as `none`). -/
theorem c2_crash_cex :
    "B" ∈ stateC2.nodes ∧ get_nodeCH hashCH stateC2 "k" = none := by decide

/-! ### C3 -/

/-- C3 (amended): `simple_hashing.py`'s guarded `add_node` is idempotent —
adding the same node twice leaves exactly the state of adding it once, for
every starting state and hash.  The claim as frozen also covers
`consistent_hashing.py`, whose `add_node` has no already-active guard; the
counterexample shows its double add changes the state (it inserts the
node's positions into the ordered sequence a second time). -/
theorem c3_add_node_guarded_idempotent (h : String → Nat) (s : RingState)
    (X : String) :
    add_nodeSH h (add_nodeSH h s X) X = add_nodeSH h s X := by
  by_cases hmem : X ∈ s.nodes
  · have h1 : add_nodeSH h s X = s := by
      unfold add_nodeSH
      rw [if_pos hmem]
    rw [h1, h1]
  · have h1 : add_nodeSH h s X = add_nodeCH h s X := by
      unfold add_nodeSH
      rw [if_neg hmem]
    have h2 : X ∈ (add_nodeCH h s X).nodes := by
      unfold add_nodeCH
      rw [foldAdd_nodes]
      unfold sadd
      rw [if_neg hmem]
      simp
    rw [h1]
    unfold add_nodeSH
    rw [if_pos h2]

/-- C3 counterexample: calling `consistent_hashing.py`'s `add_node "A"`
twice on a fresh one-replica ring yields a different state than calling it
once — `sorted_keys` holds the position of "A#0" twice. -/
theorem c3_add_twice_cex :
    add_nodeCH hashCH (add_nodeCH hashCH (emptyRing 1) "A") "A"
      ≠ add_nodeCH hashCH (emptyRing 1) "A" := by decide

/-! ### C4 -/

/-- C4 (amended): `remove_node` (identical in both files) deletes every
recomputed position of the departing node that is present in the mapping,
without consulting the mapping's current owner: after `remove_node X`,
position `hash(X#i)` is absent from the mapping for every `i < replicas` —
even when that position had been overwritten by another node's virtual
node.  The claim as frozen asserts the opposite (owner checked, overwritten
positions kept); the counterexample refutes it. -/
theorem c4_remove_node_blind (h : String → Nat) (s : RingState)
    (X : String) (i : Nat) (hmem : X ∈ s.nodes) (hi : i < s.replicas) :
    dget (remove_node h s X).ring (h (vnode_key X i)) = none := by
  unfold remove_node
  rw [if_pos hmem]
  exact foldRem_dget_none h X _ _ _ (Or.inl ⟨i, List.mem_range.2 hi, rfl⟩)

/-- C4 witness: the amended theorem applied at a concrete ring. -/
theorem c4_remove_node_blind_witness :
    dget (remove_node hash3 stateW1 "A").ring (hash3 (vnode_key "A" 0))
      = none :=
  c4_remove_node_blind hash3 stateW1 "A" 0 (by decide) (by decide)

/-- C4 counterexample: in `stateC4` the position 5 recomputed for "A#0" was
overwritten by "B" (last write wins), so it currently belongs to "B"; the
claim says `remove_node "A"` must not delete it, yet the code deletes it
from the mapping and pops one copy from the ordered sequence. -/
theorem c4_overwritten_deleted_cex :
    dget stateC4.ring 5 = some "B"
    ∧ dget (remove_node hashColl stateC4 "A").ring 5 = none
    ∧ (remove_node hashColl stateC4 "A").sorted_keys = [5] := by decide

/-! ### C5 -/

/-- C5 (amended): after every sequence of guarded (`simple_hashing.py`)
`add_node` and `remove_node` calls in which distinct virtual-node keys
hash to distinct positions, the ordered sequence is strictly increasing
and is a permutation of (contains exactly) the keys of the
position-to-node mapping.  The claim as frozen covers the unguarded
`consistent_hashing.py` `add_node` as well; the counterexample shows its
double add leaves a duplicate entry in the sequence, and on a genuine
collision both files' `add_node` append a duplicate to the sequence
(`bisect.insort` runs unconditionally; only the mapping is overwritten). -/
theorem c5_sorted_invariant (h : String → Nat) (R : Nat) (ops : List Op)
    (hcoll : noCollOn h R (opNodes ops)) :
    (runOps h R ops).sorted_keys.Pairwise (· < ·)
    ∧ List.Perm (runOps h R ops).sorted_keys
        (dkeys (runOps h R ops).ring) := by
  obtain ⟨hnd, hperm, hsort⟩ := (inv_runOps h R ops hcoll).wf
  exact ⟨hsort, hperm⟩

/-- C5 witness: the amended theorem applied to the one-node ring built by
add "A" under the real SHA-1 hash. -/
theorem c5_sorted_invariant_witness :
    (runOps hashCH 1 [Op.add "A"]).sorted_keys.Pairwise (· < ·)
    ∧ List.Perm (runOps hashCH 1 [Op.add "A"]).sorted_keys
        (dkeys (runOps hashCH 1 [Op.add "A"]).ring) :=
  c5_sorted_invariant hashCH 1 [Op.add "A"] (by decide)

/-- C5 counterexample: after `consistent_hashing.py`'s `add_node "A"` runs
twice on a fresh one-replica ring (real SHA-1 hash), the ordered sequence
contains a duplicate entry — it is not strictly increasing and no longer
matches the mapping's keys one-for-one. -/
theorem c5_duplicate_cex :
    ¬ (add_nodeCH hashCH (add_nodeCH hashCH (emptyRing 1) "A")
        "A").sorted_keys.Nodup := by decide

/-! ### C6 -/

/-- C6 (amended): `consistent_hashing.py`'s hash — the first 8 SHA-1 digest
bytes of the UTF-8 encoded input read big-endian — is a pure function into
the unsigned 64-bit range, for every input string including the empty one.
`simple_hashing.py`'s hash is the FULL 128-bit MD5 digest read as an
integer: it is bounded by 2^128, not 2^64, so the frozen claim's "returns
an unsigned 64-bit integer ... truncated to the first 64 bits" holds only
for `consistent_hashing.py`; the counterexample exhibits a value ≥ 2^64. -/
theorem c6_hash_ranges (key : String) :
    hashCH key < 2 ^ 64 ∧ hashSH key < 2 ^ 128 :=
  ⟨hashCH_lt key, hashSH_lt key⟩

/-- C6 counterexample: the MD5-based hash of `simple_hashing.py` on the
one-character input "a" exceeds the unsigned 64-bit range. -/
theorem c6_hashSH_width_cex : 2 ^ 64 ≤ hashSH "a" := by decide

/-! ### C7 -/

/-- C7 (confirmed): on a non-empty well-formed ring, a key whose hash is
strictly greater than every placed position resolves, in both files, to
the node owning the smallest placed position (the head `q0` of the sorted
sequence, which the first conjunct certifies as minimal), without failing
or returning `None`. -/
theorem c7_wraparound (h : String → Nat) (s : RingState) (key : String)
    (q0 : Nat) (rest : List Nat) (n : String)
    (hsk : s.sorted_keys = q0 :: rest)
    (hsort : s.sorted_keys.Pairwise (· < ·))
    (hre : ¬ s.ring = []) (hd : dget s.ring q0 = some n)
    (hgt : ∀ p ∈ s.sorted_keys, p < h key) :
    (∀ p ∈ s.sorted_keys, q0 ≤ p)
    ∧ get_nodeCH h s key = some (some n)
    ∧ get_nodeSH h s key = some (some n) := by
  have hbl : bl s.sorted_keys (h key) = s.sorted_keys.length :=
    bl_eq_length_of_forall_lt _ _ hgt
  have hbr : br s.sorted_keys (h key) = s.sorted_keys.length :=
    br_eq_length_of_forall_le _ _ (fun p hp => Nat.le_of_lt (hgt p hp))
  refine ⟨?_, ?_, ?_⟩
  · intro p hp
    rw [hsk] at hp hsort
    rcases List.mem_cons.1 hp with hp | hp
    · exact hp ▸ Nat.le_refl _
    · exact Nat.le_of_lt ((List.pairwise_cons.1 hsort).1 p hp)
  · refine get_nodeCH_eq_some h s key q0 n hre ?_ hd
    rw [if_pos hbl, hsk]
    rfl
  · refine get_nodeSH_eq_some h s key q0 n hre ?_ hd
    rw [if_pos hbr, hsk]
    rfl

/-- C7 witness: wrap-around on a concrete two-node ring whose positions 3
and 7 both lie below the key's hash 100. -/
theorem c7_wraparound_witness :
    (∀ p ∈ stateW7.sorted_keys, 3 ≤ p)
    ∧ get_nodeCH hash100 stateW7 "k" = some (some "A")
    ∧ get_nodeSH hash100 stateW7 "k" = some (some "A") :=
  c7_wraparound hash100 stateW7 "k" 3 [7] "A" rfl (by decide) (by decide)
    (by decide) (by decide)

/-! ### C8 -/

/-- C8 (confirmed): `remove_node` on a node that is not active is a silent
no-op in both files — the returned state is the argument state itself,
every field unchanged, and no error is raised. -/
theorem c8_remove_absent_noop (h : String → Nat) (s : RingState)
    (X : String) (hmem : X ∉ s.nodes) : remove_node h s X = s := by
  unfold remove_node
  rw [if_neg hmem]

/-- C8 witness: removing the never-added node "A" from a fresh ring. -/
theorem c8_remove_absent_noop_witness :
    remove_node hashCH (emptyRing 1) "A" = emptyRing 1 :=
  c8_remove_absent_noop hashCH (emptyRing 1) "A" (by decide)

/-! ### C9 -/

/-- C9 (amended): for every ring reached from empty by guarded `add_node`
and `remove_node` calls with replica count > 0 (as section 6 of the
specification requires) and collision-free virtual-node placement, and for
every key, both files' `get_node` return `None` exactly when the active
node set is empty.  The claim as frozen holds for every replica count; the
counterexample shows a ring constructed with zero replicas returns `None`
while a node is active. -/
theorem c9_none_iff_no_active (h : String → Nat) (R : Nat) (ops : List Op)
    (key : String) (hR : 0 < R) (hcoll : noCollOn h R (opNodes ops)) :
    (get_nodeCH h (runOps h R ops) key = some none
       ↔ (runOps h R ops).nodes = [])
    ∧ (get_nodeSH h (runOps h R ops) key = some none
       ↔ (runOps h R ops).nodes = []) :=
  rinv_get_none_iff h R (opNodes ops) (runOps h R ops)
    (inv_runOps h R ops hcoll) hR key

/-- C9 witness: the amended theorem applied to the ring built by
add "A"; remove "A" under the real MD5 hash — zero active nodes, `None`. -/
theorem c9_none_iff_no_active_witness :
    (get_nodeCH hashSH (runOps hashSH 1 [Op.add "A", Op.rem "A"]) "k"
        = some none
       ↔ (runOps hashSH 1 [Op.add "A", Op.rem "A"]).nodes = [])
    ∧ (get_nodeSH hashSH (runOps hashSH 1 [Op.add "A", Op.rem "A"]) "k"
        = some none
       ↔ (runOps hashSH 1 [Op.add "A", Op.rem "A"]).nodes = []) :=
  c9_none_iff_no_active hashSH 1 [Op.add "A", Op.rem "A"] "k" (by decide)
    (by decide)

/-- C9 counterexample: a `simple_hashing.py` ring constructed with zero
virtual nodes per node (the constructor accepts it, though section 6 of
the specification demands a replica count > 0): after `add_node "A"` the
active set is non-empty, yet `get_node` returns `None` for every key, so
"returns None iff zero active nodes" fails as frozen. -/
theorem c9_zero_replicas_cex :
    (add_nodeSH hashSH (emptyRing 0) "A").nodes ≠ []
    ∧ get_nodeSH hashSH (add_nodeSH hashSH (emptyRing 0) "A") "k"
        = some none := by decide

/-! ### C10 witness and counterexample -/

/-- C10 witness: the migration theorem applied to a concrete two-node
service storing one pair under the departing node. -/
theorem remove_node_safe_total_witness :
    ∃ svc', remove_node_safe hashW svcW "A" = some svc'
      ∧ "A" ∉ svc'.ring.nodes
      ∧ dget svc'.storage (some "A") = none
      ∧ (∀ kv ∈ [("x", "1")], ∃ m,
           get_nodeSH hashW svc'.ring kv.1 = some (some m)
           ∧ ∃ st', dget svc'.storage (some m) = some st'
           ∧ dget st' kv.1 = some kv.2)
      ∧ (∀ q k, q ≠ some "A" → k ∉ ([("x", "1")].map Prod.fst) →
           ∀ v st0, dget svcW.storage q = some st0 → dget st0 k = some v →
             ∃ st1, dget svc'.storage q = some st1 ∧ dget st1 k = some v) :=
  remove_node_safe_total hashW 1 (opNodes opsW) svcW "A" [("x", "1")]
    (by decide) (inv_runOps hashW 1 opsW (by decide)) (by decide)
    (by decide) (by decide) (by decide) (by decide)

/-- C10 counterexample: in `svcC10` the key "x" is stored under "A" with
value "1" and under "B" with value "2".  `remove_node_safe "A"` migrates
("x", "1") to the new owner "B", overwriting ("x", "2"): a pair stored
under another node was removed, contrary to the frozen claim's last
clause. -/
theorem c10_overwrite_cex :
    dget svcC10.storage (some "B") = some [("x", "2")]
    ∧ (remove_node_safe hashSH svcC10 "A").map
        (fun s => dget s.storage (some "B")) = some (some [("x", "1")])
    := by decide
